import Mathlib

/-!
Verification of the Sentinel embedded static analyzer.

Shallow embedding of the analysis core (comment stripper, pin tracker,
diagnostic provider, memory analyzer) over `List Char`, with theorems
settling the specification claims.  Source files referenced:
`comment-stripper.js` (CommentStripper.strip / isInComment),
`pin-tracker.js` (PinTracker.detectConflicts),
`diagnostics.js` (EmbeddedDiagnosticProvider.validateDocument /
validateI2CUsage / validatePWMUsage) and
`memory-analyzer.js` (MemoryAnalyzer.analyzeGlobalVariables).
-/

/-- The single-quote character, written via its code point. -/
def squote : Char := Char.ofNat 39

/-- The backslash character, written via its code point. -/
def bslash : Char := Char.ofNat 92

/-- Scanner mode for `CommentStripper.strip`: inside ordinary code with the
`inString`/`inChar` flags, inside a block comment, or inside a line comment.
The two comment modes correspond to the two inner `while` loops of the
JavaScript implementation. -/
inductive SMode where
  | plain (inS inC : Bool)
  | block
  | line
deriving DecidableEq

/-- Embedding of the main loop of `CommentStripper.strip` (comment-stripper.js,
lines 13-103).  Each branch mirrors one branch of the JavaScript `while` loop;
the inner block/line comment loops are the `block` and `line` modes. -/
def stripGo : List Char → SMode → List Char
  | [], _ => []
  | '*' :: '/' :: rest, SMode.block => ' ' :: ' ' :: stripGo rest (SMode.plain false false)
  | x :: cs, SMode.block => (if x = '\n' then '\n' else ' ') :: stripGo cs SMode.block
  | '\n' :: cs, SMode.line => '\n' :: stripGo cs (SMode.plain false false)
  | _ :: cs, SMode.line => ' ' :: stripGo cs SMode.line
  | '\\' :: [], SMode.plain true _ => ['\\']
  | '\\' :: n :: rest, SMode.plain true inC => '\\' :: n :: stripGo rest (SMode.plain true inC)
  | '\\' :: [], SMode.plain _ true => ['\\']
  | '\\' :: n :: rest, SMode.plain inS true => '\\' :: n :: stripGo rest (SMode.plain inS true)
  | '/' :: '*' :: rest, SMode.plain false false => ' ' :: stripGo rest SMode.block
  | '/' :: '/' :: rest, SMode.plain false false => ' ' :: stripGo rest SMode.line
  | x :: cs, SMode.plain inS inC =>
    if inC = false ∧ x = '"' then x :: stripGo cs (SMode.plain (!inS) inC)
    else if inS = false ∧ x = squote then x :: stripGo cs (SMode.plain inS (!inC))
    else x :: stripGo cs (SMode.plain inS inC)

/-- Embedding of `CommentStripper.strip`. -/
def strip (code : List Char) : List Char :=
  stripGo code (SMode.plain false false)

example : strip "//x".toList = "  ".toList := by decide

example : strip "a/*b*/c".toList = "a    c".toList := by decide

example : strip "\"a//b\"".toList = "\"a//b\"".toList := by decide

/-- C1: the claim that `strip(T)` has the same length and the same newline
positions as `T` is FALSE on the code, although the function's own
documentation promises it ("replaced with spaces to preserve positions").
On input `"//\na"` the two-character comment opener `//` is replaced by a
single space, so the output is one character shorter and the newline moves
from offset 2 to offset 1. -/
theorem strip_shortens_comment_openers :
    strip "//\na".toList = " \na".toList ∧
    ("//\na".toList).length = 4 ∧ (strip "//\na".toList).length = 3 ∧
    ("//\na".toList).indexOf '\n' = 2 ∧ (strip "//\na".toList).indexOf '\n' = 1 := by
  decide

/-- Pin usage kinds recorded by `PinTracker.analyzePinUsage`
(pin-tracker.js): the `type` field of a usage record. -/
inductive UsageKind where
  | digitalOutput
  | digitalInput
  | analogInput
  | pwm
  | interrupt
  | i2cSda
  | i2cScl
  | spiSs
  | spiMosi
  | spiMiso
  | spiSck
  | serialRx
  | serialTx
deriving DecidableEq

/-- The `status` field of a PinRecord produced by
`PinTracker.detectConflicts`. -/
inductive PinStatus where
  | valid
  | warning
  | conflict
deriving DecidableEq

/-- Embedding of the per-pin classification of `PinTracker.detectConflicts`
(pin-tracker.js, lines 163-216).  The JavaScript runs four `if` statements in
sequence, each reassigning `status`; there is no `else`, so a later matching
check overwrites an earlier one. -/
def detectStatus (types : List UsageKind) : PinStatus :=
  let status0 := PinStatus.valid
  if 1 < types.length then
    let hasOutput := types.contains UsageKind.digitalOutput || types.contains UsageKind.pwm
    let hasInput := types.contains UsageKind.digitalInput || types.contains UsageKind.analogInput
    let status1 := if hasOutput && hasInput then PinStatus.conflict else status0
    let status2 :=
      if types.contains UsageKind.interrupt && types.contains UsageKind.digitalOutput then
        PinStatus.conflict
      else status1
    let status3 :=
      if (types.contains UsageKind.i2cSda || types.contains UsageKind.i2cScl ||
          types.contains UsageKind.spiSs || types.contains UsageKind.spiMosi ||
          types.contains UsageKind.spiMiso || types.contains UsageKind.spiSck) &&
          (types.contains UsageKind.digitalOutput || types.contains UsageKind.digitalInput) then
        PinStatus.conflict
      else status2
    let status4 :=
      if (types.contains UsageKind.serialRx || types.contains UsageKind.serialTx) &&
          (types.contains UsageKind.digitalOutput || types.contains UsageKind.digitalInput) then
        PinStatus.warning
      else status3
    status4
  else status0

/-- Embedding of the grouping done by `PinTracker.buildPinMap`: usages are
grouped by pin number in insertion order of first occurrence (a JavaScript
`Map` keyed by pin). -/
def groupPins (usages : List (Nat × UsageKind)) : List (Nat × List UsageKind) :=
  usages.foldl
    (fun acc u =>
      if acc.any (fun g => g.1 = u.1) then
        acc.map (fun g => if g.1 = u.1 then (g.1, g.2 ++ [u.2]) else g)
      else acc ++ [(u.1, [u.2])])
    []

/-- Embedding of `PinTracker.buildPinMap` followed by `detectConflicts`,
restricted to the (pin, status) projection of the annotated map. -/
def detectConflicts (usages : List (Nat × UsageKind)) : List (Nat × PinStatus) :=
  (groupPins usages).map (fun g => (g.1, detectStatus g.2))

/-- C2 counterexample: a pin whose usage kinds satisfy both the
input-plus-output conflict condition and the serial-plus-digital warning
condition is classified `warning`, not `conflict` — the claim that conflict
classification takes priority is false on the code. -/
theorem detectConflicts_warning_overrides_conflict :
    detectConflicts
        [(5, UsageKind.digitalOutput), (5, UsageKind.digitalInput), (5, UsageKind.serialRx)]
      = [(5, PinStatus.warning)] ∧
    detectStatus [UsageKind.digitalOutput, UsageKind.digitalInput, UsageKind.serialRx]
      ≠ PinStatus.conflict := by
  decide

/-- C2 amended: the four classification checks run in sequence with no early
exit, so the LAST matching check wins.  Whenever a multi-usage pin satisfies
the serial-plus-digital warning condition, its status is `warning`, even if a
conflict condition also matched. -/
theorem detectStatus_serial_warning_wins
    (types : List UsageKind)
    (h1 : 1 < types.length)
    (h2 : (types.contains UsageKind.serialRx || types.contains UsageKind.serialTx) = true)
    (h3 : (types.contains UsageKind.digitalOutput
           || types.contains UsageKind.digitalInput) = true) :
    detectStatus types = PinStatus.warning := by
  have h2m : UsageKind.serialRx ∈ types ∨ UsageKind.serialTx ∈ types := by simpa using h2
  have h3m : UsageKind.digitalOutput ∈ types ∨ UsageKind.digitalInput ∈ types := by
    simpa using h3
  simp [detectStatus, h1]
  intro hno
  rcases hno h2m with ⟨hA, hB⟩
  rcases h3m with h | h
  · exact absurd h hA
  · exact absurd h hB

theorem detectStatus_serial_warning_wins_witness :
    detectStatus [UsageKind.digitalOutput, UsageKind.digitalInput, UsageKind.serialRx]
      = PinStatus.warning :=
  detectStatus_serial_warning_wins _ (by decide) (by decide) (by decide)

/-- Steps consumed by the inner block-comment loop of
`CommentStripper.isInComment`: characters up to and including the first
`*/`, or the whole remainder when unterminated. -/
def blockAdv : List Char → Nat
  | [] => 0
  | '*' :: '/' :: _ => 2
  | _ :: cs => 1 + blockAdv cs

/-- Steps consumed by the inner line-comment loop of
`CommentStripper.isInComment`: characters strictly before the next newline. -/
def lineAdv : List Char → Nat
  | [] => 0
  | '\n' :: _ => 0
  | _ :: cs => 1 + lineAdv cs

/-- Index just after the terminating `*/` of a block comment scan starting at
`i` (or `code.length` when unterminated), as computed by the inner loop of
`isInComment`. -/
def blockEnd (code : List Char) (i : Nat) : Nat := i + blockAdv (code.drop i)

/-- Index of the next newline at or after `i` (or `code.length`), as computed
by the inner loop of `isInComment`. -/
def lineEnd (code : List Char) (i : Nat) : Nat := i + lineAdv (code.drop i)

/-- Embedding of `CommentStripper.isInComment` (comment-stripper.js, lines
111-190).  The JavaScript `while (i < position)` loop is driven here by a
fuel argument; every iteration advances `i` by at least one, so fuel
`position` (the top-level call in `isInComment`) is always sufficient: fuel
can reach zero only once `i ≥ position`, where the loop would exit with
`false` anyway. -/
def inCommentGo : Nat → List Char → Nat → Nat → Bool → Bool → Bool
  | 0, _, _, _, _, _ => false
  | fuel + 1, code, position, i, inS, inC =>
    if i < position then
      if (inS || inC) ∧ code[i]? = some '\\' then
        inCommentGo fuel code position (i + 2) inS inC
      else if inC = false ∧ code[i]? = some '"' then
        inCommentGo fuel code position (i + 1) (!inS) inC
      else if inS = false ∧ code[i]? = some squote then
        inCommentGo fuel code position (i + 1) inS (!inC)
      else if inS = true ∨ inC = true then
        inCommentGo fuel code position (i + 1) inS inC
      else if code[i]? = some '/' ∧ code[i + 1]? = some '*' then
        if i ≤ position ∧ position < blockEnd code (i + 2) then true
        else inCommentGo fuel code position (blockEnd code (i + 2)) inS inC
      else if code[i]? = some '/' ∧ code[i + 1]? = some '/' then
        if i ≤ position ∧ position < lineEnd code (i + 2) then true
        else
          inCommentGo fuel code position
            (if lineEnd code (i + 2) < code.length then lineEnd code (i + 2) + 1
             else lineEnd code (i + 2)) inS inC
      else inCommentGo fuel code position (i + 1) inS inC
    else false

/-- Embedding of `CommentStripper.isInComment`. -/
def isInComment (code : List Char) (position : Nat) : Bool :=
  inCommentGo position code position 0 false false

example : isInComment "// hello".toList 4 = true := by decide

example : isInComment "a /* b */ c".toList 5 = true := by decide

example : isInComment "\"a//b\"".toList 3 = false := by decide

theorem inCommentGo_exit (fuel : Nat) (code : List Char) (position i : Nat) (s c : Bool)
    (h : ¬ i < position) : inCommentGo fuel code position i s c = false := by
  cases fuel <;> simp [inCommentGo, h]

/-- One scanner step over a plain character (state outside strings and
chars) that cannot open a quote or a comment. -/
theorem inCommentGo_plain_step (fuel : Nat) (code : List Char) (position i : Nat) (x : Char)
    (hi : i < position) (hx : code[i]? = some x)
    (h1 : x ≠ '"') (h2 : x ≠ squote) (h3 : x ≠ '/') :
    inCommentGo (fuel + 1) code position i false false
      = inCommentGo fuel code position (i + 1) false false := by
  simp [inCommentGo, hi, hx, h1, h2, h3]

/-- One scanner step over an in-string character that is neither a backslash
nor a closing quote. -/
theorem inCommentGo_instring_step (fuel : Nat) (code : List Char) (position i : Nat) (x : Char)
    (hi : i < position) (hx : code[i]? = some x)
    (h1 : x ≠ '\\') (h2 : x ≠ '"') :
    inCommentGo (fuel + 1) code position i true false
      = inCommentGo fuel code position (i + 1) true false := by
  simp [inCommentGo, hi, hx, h1, h2]

/-- One scanner step over an in-string escape: the backslash and the
following character are consumed atomically. -/
theorem inCommentGo_escape_step (fuel : Nat) (code : List Char) (position i : Nat)
    (hi : i < position) (hx : code[i]? = some '\\') :
    inCommentGo (fuel + 1) code position i true false
      = inCommentGo fuel code position (i + 2) true false := by
  simp [inCommentGo, hi, hx]

/-- One scanner step over an opening double quote. -/
theorem inCommentGo_openquote_step (fuel : Nat) (code : List Char) (position i : Nat)
    (hi : i < position) (hx : code[i]? = some '"') :
    inCommentGo (fuel + 1) code position i false false
      = inCommentGo fuel code position (i + 1) true false := by
  simp [inCommentGo, hi, hx]

/-- The scanner walks over a run of plain characters one step at a time. -/
theorem inCommentGo_walk_plain (n : Nat) :
    ∀ (code : List Char) (position i fuel2 : Nat),
      i + n ≤ position →
      (∀ j, j < n → ∃ x, code[i + j]? = some x ∧ x ≠ '"' ∧ x ≠ squote ∧ x ≠ '/') →
      inCommentGo (fuel2 + n) code position i false false
        = inCommentGo fuel2 code position (i + n) false false := by
  induction n with
  | zero => intro code position i fuel2 _ _; rfl
  | succ n ih =>
    intro code position i fuel2 hpos hchar
    obtain ⟨x, hx, h1, h2, h3⟩ := hchar 0 (Nat.succ_pos n)
    have hstep := inCommentGo_plain_step (fuel2 + n) code position i x
      (by omega) (by simpa using hx) h1 h2 h3
    have hrest := ih code position (i + 1) fuel2 (by omega)
      (fun j hj => by
        have h := hchar (j + 1) (by omega)
        have e : i + (j + 1) = i + 1 + j := by omega
        rwa [e] at h)
    have harith : i + 1 + n = i + (n + 1) := by omega
    rw [show fuel2 + (n + 1) = fuel2 + n + 1 from rfl, hstep, hrest, harith]

/-- The scanner walks over a run of in-string characters one step at a
time. -/
theorem inCommentGo_walk_instring (n : Nat) :
    ∀ (code : List Char) (position i fuel2 : Nat),
      i + n ≤ position →
      (∀ j, j < n → ∃ x, code[i + j]? = some x ∧ x ≠ '\\' ∧ x ≠ '"') →
      inCommentGo (fuel2 + n) code position i true false
        = inCommentGo fuel2 code position (i + n) true false := by
  induction n with
  | zero => intro code position i fuel2 _ _; rfl
  | succ n ih =>
    intro code position i fuel2 hpos hchar
    obtain ⟨x, hx, h1, h2⟩ := hchar 0 (Nat.succ_pos n)
    have hstep := inCommentGo_instring_step (fuel2 + n) code position i x
      (by omega) (by simpa using hx) h1 h2
    have hrest := ih code position (i + 1) fuel2 (by omega)
      (fun j hj => by
        have h := hchar (j + 1) (by omega)
        have e : i + (j + 1) = i + 1 + j := by omega
        rwa [e] at h)
    have harith : i + 1 + n = i + (n + 1) := by omega
    rw [show fuel2 + (n + 1) = fuel2 + n + 1 from rfl, hstep, hrest, harith]

/-- C4: comment delimiters inside a string literal, even after an escaped
quote, are never classified as comments.  For any text of the form
`pre"w\"/d...` — a string literal opened after plain text, containing `w`,
then an escaped quote, then `/` followed by any character `d` (in particular
`//` or `/*`) — `isInComment` is false both at the offset of the `/` and at
the offset of `d`: the scanner consumes the backslash-quote pair atomically
and stays in string mode. -/
theorem isInComment_escaped_quote_not_comment
    (pre w rest : List Char) (d : Char)
    (hpre : ∀ ch ∈ pre, ch ≠ '"' ∧ ch ≠ squote ∧ ch ≠ '/')
    (hw : ∀ ch ∈ w, ch ≠ '\\' ∧ ch ≠ '"') :
    isInComment (pre ++ '"' :: (w ++ '\\' :: '"' :: '/' :: d :: rest))
        (pre.length + w.length + 3) = false ∧
    isInComment (pre ++ '"' :: (w ++ '\\' :: '"' :: '/' :: d :: rest))
        (pre.length + w.length + 4) = false := by
  set t := pre ++ '"' :: (w ++ '\\' :: '"' :: '/' :: d :: rest) with ht
  have hPre : ∀ j, j < pre.length →
      ∃ x, t[(0 : Nat) + j]? = some x ∧ x ≠ '"' ∧ x ≠ squote ∧ x ≠ '/' := by
    intro j hj
    refine ⟨pre[j], ?_, hpre _ (List.getElem_mem hj)⟩
    rw [ht]
    simp [List.getElem?_append_left hj, List.getElem?_eq_getElem hj]
  have hQ : t[pre.length]? = some '"' := by
    rw [ht]
    simp [List.getElem?_append_right (Nat.le_refl pre.length)]
  have hW : ∀ j, j < w.length →
      ∃ x, t[pre.length + 1 + j]? = some x ∧ x ≠ '\\' ∧ x ≠ '"' := by
    intro j hj
    refine ⟨w[j], ?_, hw _ (List.getElem_mem hj)⟩
    rw [ht]
    rw [List.getElem?_append_right (by omega)]
    have : pre.length + 1 + j - pre.length = j + 1 := by omega
    rw [this]
    simp [List.getElem?_append_left hj, List.getElem?_eq_getElem hj]
  have hB : t[pre.length + 1 + w.length]? = some '\\' := by
    rw [ht]
    rw [List.getElem?_append_right (by omega)]
    have : pre.length + 1 + w.length - pre.length = w.length + 1 := by omega
    rw [this]
    rw [List.getElem?_cons_succ]
    rw [List.getElem?_append_right (Nat.le_refl w.length)]
    rw [Nat.sub_self]
    rfl
  have hS : t[pre.length + w.length + 3]? = some '/' := by
    rw [ht]
    rw [List.getElem?_append_right (by omega)]
    have : pre.length + w.length + 3 - pre.length = w.length + 3 := by omega
    rw [this]
    rw [show w.length + 3 = (w.length + 2) + 1 from rfl, List.getElem?_cons_succ]
    rw [List.getElem?_append_right (by omega)]
    have : w.length + 2 - w.length = 2 := by omega
    rw [this]
    rfl
  constructor
  · show inCommentGo (pre.length + w.length + 3) t (pre.length + w.length + 3) 0 false false
      = false
    rw [show pre.length + w.length + 3 = (w.length + 3) + pre.length from by omega]
    rw [inCommentGo_walk_plain pre.length t _ 0 (w.length + 3) (by omega) hPre]
    rw [show (w.length + 3) = (w.length + 2) + 1 from rfl]
    rw [inCommentGo_openquote_step _ _ _ _ (by omega) (by simpa using hQ)]
    rw [show w.length + 2 = 2 + w.length from by omega]
    rw [inCommentGo_walk_instring w.length t _ _ 2 (by omega)
      (fun j hj => by simpa [Nat.add_assoc] using hW j hj)]
    rw [show (2 : Nat) = 1 + 1 from rfl]
    rw [inCommentGo_escape_step _ _ _ _ (by omega) (by simpa using hB)]
    exact inCommentGo_exit _ _ _ _ _ _ (by omega)
  · show inCommentGo (pre.length + w.length + 4) t (pre.length + w.length + 4) 0 false false
      = false
    rw [show pre.length + w.length + 4 = (w.length + 4) + pre.length from by omega]
    rw [inCommentGo_walk_plain pre.length t _ 0 (w.length + 4) (by omega) hPre]
    rw [show (w.length + 4) = (w.length + 3) + 1 from rfl]
    rw [inCommentGo_openquote_step _ _ _ _ (by omega) (by simpa using hQ)]
    rw [show w.length + 3 = 3 + w.length from by omega]
    rw [inCommentGo_walk_instring w.length t _ _ 3 (by omega)
      (fun j hj => by simpa [Nat.add_assoc] using hW j hj)]
    rw [show (3 : Nat) = 2 + 1 from rfl]
    rw [inCommentGo_escape_step _ _ _ _ (by omega) (by simpa using hB)]
    rw [show (2 : Nat) = 1 + 1 from rfl]
    rw [inCommentGo_instring_step 1 t _ _ '/' (by omega)
      (by simpa [show pre.length + 1 + w.length + 2 = pre.length + w.length + 3 from by omega]
        using hS) (by decide) (by decide)]
    exact inCommentGo_exit _ _ _ _ _ _ (by omega)

/-- C4 witness: the spec's concrete example `"a\"//b"`; offsets 4 and 5 are
the two slashes after the escaped quote. -/
theorem isInComment_escaped_quote_not_comment_witness :
    isInComment ['"', 'a', '\\', '"', '/', '/', 'b', '"'] 4 = false ∧
    isInComment ['"', 'a', '\\', '"', '/', '/', 'b', '"'] 5 = false :=
  isInComment_escaped_quote_not_comment [] ['a'] ['b', '"'] '/'
    (by decide) (by decide)

/-- A diagnostic, restricted to the fields the claims are about: the LSP
severity (1 error, 2 warning, 3 information), the 0-based start position of
its range, and the rule code.  The message and range-end fields of the
JavaScript objects are not modelled. -/
structure Diag where
  severity : Nat
  line : Nat
  character : Nat
  code : String
deriving DecidableEq

/-- Embedding of the LSP `document.positionAt`: 0-based line and character of
a character offset, computed by newline counting. -/
def positionAt (text : List Char) (offset : Nat) : Nat × Nat :=
  let pre := text.take offset
  (pre.count '\n', (pre.reverse.takeWhile (fun ch => ch ≠ '\n')).length)

/-- ASCII whitespace matched by the JavaScript regex class `\s`. -/
def isJsSpace (c : Char) : Bool :=
  c = ' ' || c = '\t' || c = '\n' || c = '\r' || c = Char.ofNat 11 || c = Char.ofNat 12

/-- Characters matched by the JavaScript regex class `\w`. -/
def isWordChar (c : Char) : Bool :=
  c.isAlpha || c.isDigit || c = '_'

/-- Characters matched by the regex class `[0-9A-Fa-f]`. -/
def isHexDigitChar (c : Char) : Bool :=
  if c.isDigit then true
  else if 'a' ≤ c ∧ c ≤ 'f' then true
  else if 'A' ≤ c ∧ c ≤ 'F' then true
  else false

def hexDigitVal (c : Char) : Nat :=
  if c.isDigit then c.toNat - 48
  else if 'a' ≤ c ∧ c ≤ 'f' then c.toNat - 87
  else if 'A' ≤ c ∧ c ≤ 'F' then c.toNat - 55
  else 0

/-- Value of a hexadecimal digit string (the `parseInt(match[1], 16)` of
`validateI2CUsage`). -/
def hexVal (l : List Char) : Nat :=
  l.foldl (fun a c => a * 16 + hexDigitVal c) 0

/-- Value of a decimal digit string. -/
def decVal (l : List Char) : Nat :=
  l.foldl (fun a c => a * 10 + (c.toNat - 48)) 0

/-- Embedding of JavaScript `parseInt(s)` for arguments drawn from `\w+`
matches: a leading `0x`/`0X` switches to hexadecimal; otherwise the maximal
leading decimal-digit prefix is parsed; no digits means `NaN` (`none`). -/
def jsParseInt (l : List Char) : Option Nat :=
  if "0x".toList.isPrefixOf l ∨ "0X".toList.isPrefixOf l then
    let hx := (l.drop 2).takeWhile isHexDigitChar
    if hx = [] then none else some (hexVal hx)
  else
    let ds := l.takeWhile Char.isDigit
    if ds = [] then none else some (decVal ds)

/-- First index of `needle` as a contiguous sublist (JavaScript
`String.indexOf`). -/
def subIdx (needle : List Char) : List Char → Option Nat
  | [] => if needle.isEmpty then some 0 else none
  | l@(_ :: cs) =>
    if needle.isPrefixOf l then some 0 else (subIdx needle cs).map (· + 1)

/-- Match of the `validateI2CUsage` address regex
`(?:beginTransmission|requestFrom)\s*\(\s*0x([0-9A-Fa-f]+)` at the head of
`l`.  Returns the match length, the offset of `0x` within the match (the
`match[0].indexOf` computation — the keywords contain no `0`, so the first
occurrence of the hex literal is the matched one), and the parsed address
value. -/
def i2cMatchAt (l : List Char) : Option (Nat × Nat × Nat) :=
  let kwLen : Option Nat :=
    if "beginTransmission".toList.isPrefixOf l then some 17
    else if "requestFrom".toList.isPrefixOf l then some 11
    else none
  match kwLen with
  | none => none
  | some k =>
    let r1 := l.drop k
    let w1 := (r1.takeWhile isJsSpace).length
    let r2 := r1.drop w1
    if r2.head? = some '(' then
      let r3 := r2.drop 1
      let w2 := (r3.takeWhile isJsSpace).length
      let r4 := r3.drop w2
      if "0x".toList.isPrefixOf r4 then
        let hx := (r4.drop 2).takeWhile isHexDigitChar
        if hx = [] then none
        else some (k + w1 + 1 + w2 + 2 + hx.length, k + w1 + 1 + w2, hexVal hx)
      else none
    else none

/-- The `exec` loop over the address regex: successive non-overlapping
matches in text order, each reported as (match index, address-literal index,
address value).  Fuel is the remaining text length; every step consumes at
least one character. -/
def i2cScanGo : Nat → List Char → Nat → List (Nat × Nat × Nat)
  | 0, _, _ => []
  | fuel + 1, l, idx =>
    match l with
    | [] => []
    | _ :: cs =>
      match i2cMatchAt l with
      | some (len, hoff, v) => (idx, idx + hoff, v) :: i2cScanGo fuel (l.drop len) (idx + len)
      | none => i2cScanGo fuel cs (idx + 1)

/-- All address-regex matches of a text. -/
def i2cMatches (text : List Char) : List (Nat × Nat × Nat) :=
  i2cScanGo text.length text 0

/-- Diagnostic at a given character offset of the text. -/
def mkDiagAt (text : List Char) (offset severity : Nat) (c : String) : Diag :=
  ⟨severity, (positionAt text offset).1, (positionAt text offset).2, c⟩

/-- The `usedAddresses.add` of the JavaScript `Set`. -/
def addAddr (used : List Nat) (a : Nat) : List Nat :=
  if used.contains a then used else a :: used

/-- Embedding of the address-classification loop of
`EmbeddedDiagnosticProvider.validateI2CUsage` (diagnostics.js, lines
343-413): per scanned address, skip when in a comment, then reserved-low,
reserved-high, out-of-range, and duplicate checks, in that order, each ending
the iteration. -/
def i2cLoop (text : List Char) : List (Nat × Nat × Nat) → List Nat → List Diag
  | [], _ => []
  | (mIdx, aIdx, addr) :: ms, used =>
    if isInComment text mIdx then i2cLoop text ms used
    else if 0 ≤ addr ∧ addr ≤ 0x07 then
      mkDiagAt text aIdx 1 "reserved-i2c-address" :: i2cLoop text ms used
    else if 0x78 ≤ addr ∧ addr ≤ 0x7F then
      mkDiagAt text aIdx 1 "reserved-i2c-address" :: i2cLoop text ms used
    else if 0x7F < addr then
      mkDiagAt text aIdx 1 "invalid-i2c-address" :: i2cLoop text ms used
    else if used.contains addr then
      mkDiagAt text aIdx 3 "duplicate-i2c-address" :: i2cLoop text ms (addAddr used addr)
    else i2cLoop text ms (addAddr used addr)

/-- Match length of the regex `Wire\.(?:beginTransmission|requestFrom|write|read)`
at the head of `l`, trying the alternatives in source order. -/
def wireCallAt (l : List Char) : Option Nat :=
  if "Wire.beginTransmission".toList.isPrefixOf l then some 22
  else if "Wire.requestFrom".toList.isPrefixOf l then some 16
  else if "Wire.write".toList.isPrefixOf l then some 10
  else if "Wire.read".toList.isPrefixOf l then some 9
  else none

/-- First match of a Wire member call (forward text search), with its index
and length. -/
def firstWireCallGo : List Char → Nat → Option (Nat × Nat)
  | [], _ => none
  | l@(_ :: cs), idx =>
    match wireCallAt l with
    | some len => some (idx, len)
    | none => firstWireCallGo cs (idx + 1)

/-- Match of the regex `Wire\.begin\s*\(` at the head of `l`. -/
def wireBeginAt (l : List Char) : Bool :=
  if "Wire.begin".toList.isPrefixOf l then
    let r := (l.drop 10).drop (((l.drop 10).takeWhile isJsSpace).length)
    if r.head? = some '(' then true else false
  else false

/-- The test `Wire\.begin\s*\(/.test(text)`. -/
def hasWireBeginGo : List Char → Bool
  | [] => false
  | l@(_ :: cs) => wireBeginAt l || hasWireBeginGo cs

/-- Embedding of `EmbeddedDiagnosticProvider.validateI2CUsage`
(diagnostics.js, lines 335-437): the address-classification loop followed by
the missing-`Wire.begin` check, whose single diagnostic is positioned at the
first Wire member call found by a forward text search. -/
def validateI2CUsage (text : List Char) : List Diag :=
  i2cLoop text (i2cMatches text) [] ++
    (match firstWireCallGo text 0 with
     | some (idx, _) =>
       if hasWireBeginGo text then [] else [mkDiagAt text idx 1 "missing-wire-begin"]
     | none => [])

/-- C3: per scanned I2C address occurrence (outside comments), the
classification of `validateI2CUsage` is: a reserved address (0x00-0x07 or
0x78-0x7F) contributes exactly one error diagnostic coded
`reserved-i2c-address` (in particular it is never reported as
`invalid-i2c-address`); an address above 0x7F contributes exactly one
`invalid-i2c-address` error; a valid address already in the used set
contributes one `duplicate-i2c-address` information diagnostic positioned at
the later occurrence. -/
theorem i2c_address_classification
    (text : List Char) (ms : List (Nat × Nat × Nat)) (used : List Nat)
    (mIdx aIdx addr : Nat)
    (hnc : isInComment text mIdx = false) :
    ((addr ≤ 0x07 ∨ (0x78 ≤ addr ∧ addr ≤ 0x7F)) →
      i2cLoop text ((mIdx, aIdx, addr) :: ms) used
        = mkDiagAt text aIdx 1 "reserved-i2c-address" :: i2cLoop text ms used) ∧
    (0x7F < addr →
      i2cLoop text ((mIdx, aIdx, addr) :: ms) used
        = mkDiagAt text aIdx 1 "invalid-i2c-address" :: i2cLoop text ms used) ∧
    (0x08 ≤ addr → addr ≤ 0x77 → used.contains addr = true →
      i2cLoop text ((mIdx, aIdx, addr) :: ms) used
        = mkDiagAt text aIdx 3 "duplicate-i2c-address"
            :: i2cLoop text ms (addAddr used addr)) := by
  refine ⟨?_, ?_, ?_⟩
  · rintro (h | ⟨h1, h2⟩)
    · simp [i2cLoop, hnc, h]
    · have n1 : ¬ addr ≤ 0x07 := by omega
      simp [i2cLoop, hnc, n1, h1, h2]
  · intro h
    have n1 : ¬ addr ≤ 0x07 := by omega
    have n2 : ¬ (0x78 ≤ addr ∧ addr ≤ 0x7F) := by omega
    simp [i2cLoop, hnc, n1, n2, h]
  · intro h1 h2 h3
    have n1 : ¬ addr ≤ 0x07 := by omega
    have n2 : ¬ (0x78 ≤ addr ∧ addr ≤ 0x7F) := by omega
    have n3 : ¬ 0x7F < addr := by omega
    have h3m : addr ∈ used := by simpa using h3
    simp [i2cLoop, hnc, n1, n2, n3, h3m]

/-- C3 witness: `0x05` is reported reserved (never invalid), `0x90` invalid,
and a repeated `0x50` duplicate. -/
theorem i2c_address_classification_witness :
    i2cLoop "Wire.beginTransmission(0x05);".toList [(5, 23, 5)] []
      = [mkDiagAt "Wire.beginTransmission(0x05);".toList 23 1 "reserved-i2c-address"] ∧
    i2cLoop "Wire.beginTransmission(0x90);".toList [(5, 23, 0x90)] []
      = [mkDiagAt "Wire.beginTransmission(0x90);".toList 23 1 "invalid-i2c-address"] ∧
    i2cLoop "x".toList [(0, 0, 0x50)] [0x50]
      = [mkDiagAt "x".toList 0 3 "duplicate-i2c-address"] := by
  refine ⟨?_, ?_, ?_⟩
  · have h := (i2c_address_classification "Wire.beginTransmission(0x05);".toList [] []
      5 23 5 (by decide)).1 (Or.inl (by decide))
    simpa [i2cLoop] using h
  · have h := (i2c_address_classification "Wire.beginTransmission(0x90);".toList [] []
      5 23 0x90 (by decide)).2.1 (by decide)
    simpa [i2cLoop] using h
  · have h := (i2c_address_classification "x".toList [] [0x50]
      0 0 0x50 (by decide)).2.2 (by decide) (by decide) (by decide)
    simpa [i2cLoop] using h

/-- Substring containment (JavaScript `String.includes`). -/
def containsSub (hay needle : List Char) : Bool :=
  (subIdx needle hay).isSome

/-- C6 counterexample: the text `Wire.begin ();\nWire.write(1);` contains a
Wire member call and no occurrence of the literal `Wire.begin(`, yet
`validateI2CUsage` emits no `missing-wire-begin` diagnostic: the code's
regex `Wire\.begin\s*\(` accepts whitespace before the parenthesis, so the
claim's premise as stated does not imply the diagnostic. -/
theorem missing_wire_begin_claim_counterexample :
    containsSub "Wire.begin ();\nWire.write(1);".toList "Wire.write".toList = true ∧
    containsSub "Wire.begin ();\nWire.write(1);".toList "Wire.begin(".toList = false ∧
    (validateI2CUsage "Wire.begin ();\nWire.write(1);".toList).filter
      (fun d => d.code == "missing-wire-begin") = [] := by
  decide

/-- The address-classification loop only emits address diagnostics, never the
`missing-wire-begin` code. -/
theorem i2cLoop_no_missing_wire (text : List Char) :
    ∀ (ms : List (Nat × Nat × Nat)) (used : List Nat),
      (i2cLoop text ms used).filter (fun d => d.code == "missing-wire-begin") = [] := by
  intro ms
  induction ms with
  | nil => intro used; simp [i2cLoop]
  | cons m ms ih =>
    intro used
    obtain ⟨mIdx, aIdx, addr⟩ := m
    simp only [i2cLoop]
    split
    · exact ih used
    · split
      · simp [List.filter_cons, mkDiagAt, ih]
      · split
        · simp [List.filter_cons, mkDiagAt, ih]
        · split
          · simp [List.filter_cons, mkDiagAt, ih]
          · split
            · simp [List.filter_cons, mkDiagAt, ih]
            · exact ih _

/-- C6 amended: when the text contains a Wire member call matched by
`Wire\.(beginTransmission|requestFrom|write|read)` and no match of the regex
`Wire\.begin\s*\(` (rather than merely no literal `Wire.begin(`),
`validateI2CUsage` emits exactly one `missing-wire-begin` diagnostic, of
error severity, positioned at the first Wire member call found by a forward
text search. -/
theorem missing_wire_begin_amended
    (text : List Char) (idx len : Nat)
    (h1 : firstWireCallGo text 0 = some (idx, len))
    (h2 : hasWireBeginGo text = false) :
    (validateI2CUsage text).filter (fun d => d.code == "missing-wire-begin")
      = [mkDiagAt text idx 1 "missing-wire-begin"] := by
  unfold validateI2CUsage
  rw [List.filter_append, i2cLoop_no_missing_wire, h1, h2]
  simp [mkDiagAt]

/-- C6 witness: scenario 2 of the spec, `Wire.beginTransmission(0x03);` with
no `Wire.begin`. -/
theorem missing_wire_begin_amended_witness :
    (validateI2CUsage "Wire.beginTransmission(0x03);".toList).filter
      (fun d => d.code == "missing-wire-begin")
      = [mkDiagAt "Wire.beginTransmission(0x03);".toList 0 1 "missing-wire-begin"] :=
  missing_wire_begin_amended _ 0 22 (by decide) (by decide)

/-- A board record of the hardware descriptor store, restricted to the
fields relevant here. -/
structure HardwareDescriptor where
  name : String
  digitalPins : List Nat
  pwmPins : List Nat

/-- Match of the regex `analogWrite\s*\(\s*(\d+)\s*,\s*(\w+)\s*\)` at the
head of `l`: returns the match length and the two capture groups. -/
def pwmMatchAt (l : List Char) : Option (Nat × List Char × List Char) :=
  if "analogWrite".toList.isPrefixOf l then
    let r1 := l.drop 11
    let w1 := (r1.takeWhile isJsSpace).length
    let r2 := r1.drop w1
    if r2.head? = some '(' then
      let r3 := r2.drop 1
      let w2 := (r3.takeWhile isJsSpace).length
      let r4 := r3.drop w2
      let pinStr := r4.takeWhile Char.isDigit
      if pinStr = [] then none
      else
        let r5 := r4.drop pinStr.length
        let w3 := (r5.takeWhile isJsSpace).length
        let r6 := r5.drop w3
        if r6.head? = some ',' then
          let r7 := r6.drop 1
          let w4 := (r7.takeWhile isJsSpace).length
          let r8 := r7.drop w4
          let valStr := r8.takeWhile isWordChar
          if valStr = [] then none
          else
            let r9 := r8.drop valStr.length
            let w5 := (r9.takeWhile isJsSpace).length
            let r10 := r9.drop w5
            if r10.head? = some ')' then
              some (11 + w1 + 1 + w2 + pinStr.length + w3 + 1 + w4 + valStr.length + w5 + 1,
                pinStr, valStr)
            else none
        else none
    else none
  else none

/-- The `exec` loop over the `analogWrite` regex. -/
def pwmScanGo : Nat → List Char → Nat → List (Nat × Nat × List Char × List Char)
  | 0, _, _ => []
  | fuel + 1, l, idx =>
    match l with
    | [] => []
    | _ :: cs =>
      match pwmMatchAt l with
      | some (len, pinStr, valStr) =>
        (idx, len, pinStr, valStr) :: pwmScanGo fuel (l.drop len) (idx + len)
      | none => pwmScanGo fuel cs (idx + 1)

/-- Diagnostics contributed by one `analogWrite` match, mirroring the loop
body of `validatePWMUsage`: a `no-pwm-support` error when the pin is outside
the hard-coded set {3, 5, 6, 9, 10, 11}, and a `pwm-value-overflow` error
when the parsed value exceeds 255 (`HIGH` maps to 255, `LOW` to 0,
non-numeric words to NaN).  The `indexOf` position computations on the
matched text are mirrored by `subIdx`; both needles always occur, so the
`getD 0` default is never taken. -/
def pwmDiags (text : List Char) (m : Nat × Nat × List Char × List Char) : List Diag :=
  let idx := m.1
  let len := m.2.1
  let pinStr := m.2.2.1
  let valStr := m.2.2.2
  let pin := decVal pinStr
  let value : Option Nat :=
    if valStr = "HIGH".toList then some 255
    else if valStr = "LOW".toList then some 0
    else jsParseInt valStr
  let matched := (text.drop idx).take len
  let pinIndex := idx + (subIdx pinStr matched).getD 0
  let valueIndex := idx + (subIdx valStr matched).getD 0
  (if [3, 5, 6, 9, 10, 11].contains pin then []
   else [mkDiagAt text pinIndex 1 "no-pwm-support"]) ++
    (match value with
     | some v => if 255 < v then [mkDiagAt text valueIndex 1 "pwm-value-overflow"] else []
     | none => [])

/-- Embedding of `EmbeddedDiagnosticProvider.validatePWMUsage`
(diagnostics.js, lines 711-755).  The JavaScript method reads neither
`this.hardwareDB` nor any other board state; the `db` parameter models the
provider's `hardwareDB` field and is (faithfully) unused. -/
def validatePWMUsage (_db : Option HardwareDescriptor) (text : List Char) : List Diag :=
  ((pwmScanGo text.length text 0).map (pwmDiags text)).flatten

/-- C7: `analogWrite(2, 128)` yields exactly a `no-pwm-support` error (pin 2
is not PWM-capable on the Uno pin set), and `analogWrite(9, 300)` yields no
`no-pwm-support` error but exactly a `pwm-value-overflow` error since
300 > 255. -/
theorem pwm_validation_examples :
    (validatePWMUsage none "analogWrite(2, 128);".toList).map (fun d => (d.severity, d.code))
      = [(1, "no-pwm-support")] ∧
    (validatePWMUsage none "analogWrite(9, 300);".toList).map (fun d => (d.severity, d.code))
      = [(1, "pwm-value-overflow")] := by
  decide

/-- C10: `validatePWMUsage` is independent of the hardware descriptor state:
any two provider states (any board loaded, or none) produce identical
diagnostics for every text, because the method only uses the hard-coded PWM
pin set and value limit. -/
theorem validatePWMUsage_ignores_board
    (db1 db2 : Option HardwareDescriptor) (text : List Char) :
    validatePWMUsage db1 text = validatePWMUsage db2 text := rfl

/-- A registered validator, as called by `validateDocument`: from the
document text to either a list of diagnostics or a thrown error. -/
abbrev ValidatorFn := List Char → Except String (List Diag)

/-- The per-validator `.catch(e => { ...; return []; })` fault boundary
attached at each call site in `validateDocument` (diagnostics.js, lines
25-62): a thrown error becomes an empty diagnostic list. -/
def runCaught (v : ValidatorFn) (text : List Char) : List Diag :=
  match v text with
  | Except.ok ds => ds
  | Except.error _ => []

/-- Embedding of `EmbeddedDiagnosticProvider.validateDocument`
(diagnostics.js, lines 17-76): run every registered validator over the text
with a fault boundary around each, then concatenate the results in
registration order. -/
def validateDocument (validators : List ValidatorFn) (text : List Char) : List Diag :=
  (validators.map (fun v => runCaught v text)).flatten

/-- C5: `validateDocument` is fault-isolated per validator: if one validator
throws, the result is still returned normally and equals the concatenation
of the other validators' outputs, the throwing validator contributing
nothing. -/
theorem validateDocument_fault_isolated
    (vs1 vs2 : List ValidatorFn) (v : ValidatorFn) (text : List Char) (e : String)
    (h : v text = Except.error e) :
    validateDocument (vs1 ++ v :: vs2) text
      = validateDocument vs1 text ++ validateDocument vs2 text := by
  simp [validateDocument, runCaught, h]

/-- C5 witness: one healthy validator followed by a throwing one. -/
theorem validateDocument_fault_isolated_witness :
    validateDocument
        [fun _ => Except.ok [⟨1, 0, 0, "pin-conflict"⟩], fun _ => Except.error "boom"] []
      = [⟨1, 0, 0, "pin-conflict"⟩] := by
  have h := validateDocument_fault_isolated
    [fun _ => Except.ok [⟨1, 0, 0, "pin-conflict"⟩]] []
    (fun _ => Except.error "boom") [] "boom" rfl
  exact h.trans (by decide)

/-- The empty-input equation of `stripGo`. -/
theorem stripGo_nil (m : SMode) : stripGo [] m = [] := by simp [stripGo]

/-- Block mode: `*/` emits two spaces and returns to plain mode. -/
theorem stripGo_block_close (rest : List Char) :
    stripGo ('*' :: '/' :: rest) SMode.block
      = ' ' :: ' ' :: stripGo rest (SMode.plain false false) := by
  simp [stripGo]

/-- Block mode: any other character is blanked (newlines preserved). -/
theorem stripGo_block_cons (x : Char) (cs : List Char)
    (h : ¬ (x = '*' ∧ cs.head? = some '/')) :
    stripGo (x :: cs) SMode.block
      = (if x = '\n' then '\n' else ' ') :: stripGo cs SMode.block := by
  rw [stripGo.eq_def]
  split <;> simp_all

/-- Line mode: the newline ends the comment and is preserved. -/
theorem stripGo_line_nl (cs : List Char) :
    stripGo ('\n' :: cs) SMode.line = '\n' :: stripGo cs (SMode.plain false false) := by
  simp [stripGo]

/-- Line mode: any other character is blanked. -/
theorem stripGo_line_cons (x : Char) (cs : List Char) (h : x ≠ '\n') :
    stripGo (x :: cs) SMode.line = ' ' :: stripGo cs SMode.line := by
  rw [stripGo.eq_def]
  split <;> simp_all

/-- Plain mode, in a string or char literal: a trailing backslash is copied. -/
theorem stripGo_esc_nil (s c : Bool) (h : s = true ∨ c = true) :
    stripGo ['\\'] (SMode.plain s c) = ['\\'] := by
  rcases h with h | h <;> subst h
  · cases c <;> simp [stripGo]
  · cases s <;> simp [stripGo]

/-- Plain mode, in a string or char literal: a backslash copies itself and the
next character atomically. -/
theorem stripGo_esc_cons (s c : Bool) (nn : Char) (rest : List Char)
    (h : s = true ∨ c = true) :
    stripGo ('\\' :: nn :: rest) (SMode.plain s c)
      = '\\' :: nn :: stripGo rest (SMode.plain s c) := by
  rcases h with h | h <;> subst h
  · cases c <;> simp [stripGo]
  · cases s <;> simp [stripGo]

/-- Plain mode outside literals: `/*` opens a block comment. -/
theorem stripGo_block_open (rest : List Char) :
    stripGo ('/' :: '*' :: rest) (SMode.plain false false)
      = ' ' :: stripGo rest SMode.block := by
  simp [stripGo]

/-- Plain mode outside literals: `//` opens a line comment. -/
theorem stripGo_line_open (rest : List Char) :
    stripGo ('/' :: '/' :: rest) (SMode.plain false false)
      = ' ' :: stripGo rest SMode.line := by
  simp [stripGo]

/-- Plain mode, all remaining branches: quote toggles and plain copies.  (The
JavaScript in-literal copy branch and final copy branch have identical
bodies, so they share this equation.) -/
theorem stripGo_general (x : Char) (cs : List Char) (s c : Bool)
    (h1 : ¬ (x = '\\' ∧ (s = true ∨ c = true)))
    (h2 : ¬ (x = '/' ∧ s = false ∧ c = false ∧ (cs.head? = some '*' ∨ cs.head? = some '/'))) :
    stripGo (x :: cs) (SMode.plain s c) =
      if c = false ∧ x = '"' then x :: stripGo cs (SMode.plain (!s) c)
      else if s = false ∧ x = squote then x :: stripGo cs (SMode.plain s (!c))
      else x :: stripGo cs (SMode.plain s c) := by
  rw [stripGo.eq_def]
  split <;> simp_all

/-- The output of block mode is blanked characters (spaces and newlines)
followed by the plain-mode output of some suffix of the input. -/
theorem stripGo_block_shape : ∀ l : List Char, ∃ ws r,
    stripGo l SMode.block = ws ++ stripGo r (SMode.plain false false) ∧
    (∀ ch ∈ ws, ch = ' ' ∨ ch = '\n') ∧ r.length ≤ l.length := by
  intro l
  induction l with
  | nil => exact ⟨[], [], by simp [stripGo], by simp, by simp⟩
  | cons x cs ih =>
    by_cases h : x = '*' ∧ cs.head? = some '/'
    · obtain ⟨rfl, hh⟩ := h
      cases cs with
      | nil => simp at hh
      | cons y rest =>
        have hy : y = '/' := by simpa using hh
        subst hy
        refine ⟨[' ', ' '], rest, by rw [stripGo_block_close]; rfl, by simp, by simp only [List.length_cons]; omega⟩
    · obtain ⟨ws, r, heq, hws, hlen⟩ := ih
      refine ⟨(if x = '\n' then '\n' else ' ') :: ws, r, ?_, ?_, ?_⟩
      · rw [stripGo_block_cons x cs h, heq]; rfl
      · intro ch hch
        rcases List.mem_cons.mp hch with h1 | h1
        · subst h1; split <;> simp
        · exact hws ch h1
      · exact Nat.le_succ_of_le hlen

/-- The output of line mode is blanked characters followed by the plain-mode
output of some suffix of the input. -/
theorem stripGo_line_shape : ∀ l : List Char, ∃ ws r,
    stripGo l SMode.line = ws ++ stripGo r (SMode.plain false false) ∧
    (∀ ch ∈ ws, ch = ' ' ∨ ch = '\n') ∧ r.length ≤ l.length := by
  intro l
  induction l with
  | nil => exact ⟨[], [], by simp [stripGo], by simp, by simp⟩
  | cons x cs ih =>
    by_cases h : x = '\n'
    · subst h
      exact ⟨['\n'], cs, by rw [stripGo_line_nl]; rfl, by simp, by simp only [List.length_cons]; omega⟩
    · obtain ⟨ws, r, heq, hws, hlen⟩ := ih
      refine ⟨' ' :: ws, r, ?_, ?_, Nat.le_succ_of_le hlen⟩
      · rw [stripGo_line_cons x cs h, heq]; rfl
      · intro ch hch
        rcases List.mem_cons.mp hch with h1 | h1
        · subst h1; simp
        · exact hws ch h1

/-- Spaces and newlines pass through plain mode unchanged and keep the
scanner in plain mode. -/
theorem stripGo_ws_transparent : ∀ (ws X : List Char),
    (∀ ch ∈ ws, ch = ' ' ∨ ch = '\n') →
    stripGo (ws ++ X) (SMode.plain false false)
      = ws ++ stripGo X (SMode.plain false false) := by
  intro ws
  induction ws with
  | nil => intro X _; rfl
  | cons ch ws ih =>
    intro X hws
    have hch := hws ch (by simp)
    have hgen := stripGo_general ch (ws ++ X) false false
      (by rcases hch with h | h <;> simp [h])
      (by rcases hch with h | h <;> simp [h])
    rw [show (ch :: ws) ++ X = ch :: (ws ++ X) from rfl, hgen]
    rw [if_neg (by rcases hch with h | h <;> simp [h])]
    rw [if_neg (by rcases hch with h | h <;> simp [h, squote])]
    rw [ih X (fun a ha => hws a (by simp [ha]))]
    rfl

/-- In plain mode, the first output character for a non-slash head is that
head itself. -/
theorem stripGo_head_cons (d : Char) (ds : List Char) (s c : Bool) (hd : d ≠ '/') :
    ∃ t, stripGo (d :: ds) (SMode.plain s c) = d :: t := by
  by_cases hbs : d = '\\' ∧ (s = true ∨ c = true)
  · obtain ⟨rfl, hf⟩ := hbs
    cases ds with
    | nil => exact ⟨[], stripGo_esc_nil s c hf⟩
    | cons nn rest => exact ⟨nn :: stripGo rest (SMode.plain s c), stripGo_esc_cons s c nn rest hf⟩
  · rw [stripGo_general d ds s c hbs (by rintro ⟨h, _⟩; exact hd h)]
    split
    · exact ⟨_, rfl⟩
    · split
      · exact ⟨_, rfl⟩
      · exact ⟨_, rfl⟩

/-- Key idempotence induction: reprocessing stripped output in the same
plain-mode state changes nothing. -/
theorem stripGo_plain_idem : ∀ (n : Nat) (l : List Char) (s c : Bool), l.length ≤ n →
    stripGo (stripGo l (SMode.plain s c)) (SMode.plain s c) = stripGo l (SMode.plain s c) := by
  intro n
  induction n with
  | zero =>
    intro l s c hl
    have : l = [] := List.length_eq_zero.mp (Nat.le_zero.mp hl)
    subst this
    simp [stripGo]
  | succ n ih =>
    intro l s c hl
    cases l with
    | nil => simp [stripGo]
    | cons x cs =>
      simp only [List.length_cons] at hl
      by_cases hbs : x = '\\' ∧ (s = true ∨ c = true)
      · obtain ⟨rfl, hf⟩ := hbs
        cases cs with
        | nil => rw [stripGo_esc_nil s c hf, stripGo_esc_nil s c hf]
        | cons nn rest =>
          rw [stripGo_esc_cons s c nn rest hf]
          rw [stripGo_esc_cons s c nn (stripGo rest (SMode.plain s c)) hf]
          rw [ih rest s c (by simp only [List.length_cons] at hl; omega)]
      · by_cases hcm : x = '/' ∧ s = false ∧ c = false ∧
            (cs.head? = some '*' ∨ cs.head? = some '/')
        · obtain ⟨rfl, rfl, rfl, hh⟩ := hcm
          cases cs with
          | nil => simp at hh
          | cons y rest =>
            simp only [List.length_cons] at hl
            rcases hh with h | h
            · have hy : y = '*' := by simpa using h
              subst hy
              rw [stripGo_block_open]
              obtain ⟨ws, r, heq, hws, hlen⟩ := stripGo_block_shape rest
              rw [heq]
              have trans2 := stripGo_ws_transparent (' ' :: ws)
                (stripGo r (SMode.plain false false))
                (by
                  intro ch hch
                  rcases List.mem_cons.mp hch with h1 | h1
                  · exact Or.inl h1
                  · exact hws ch h1)
              rw [show (' ' :: ws) ++ stripGo r (SMode.plain false false)
                    = ' ' :: (ws ++ stripGo r (SMode.plain false false)) from rfl] at trans2
              rw [trans2, ih r false false (by omega)]
              rfl
            · have hy : y = '/' := by simpa using h
              subst hy
              rw [stripGo_line_open]
              obtain ⟨ws, r, heq, hws, hlen⟩ := stripGo_line_shape rest
              rw [heq]
              have trans2 := stripGo_ws_transparent (' ' :: ws)
                (stripGo r (SMode.plain false false))
                (by
                  intro ch hch
                  rcases List.mem_cons.mp hch with h1 | h1
                  · exact Or.inl h1
                  · exact hws ch h1)
              rw [show (' ' :: ws) ++ stripGo r (SMode.plain false false)
                    = ' ' :: (ws ++ stripGo r (SMode.plain false false)) from rfl] at trans2
              rw [trans2, ih r false false (by omega)]
              rfl
        · rw [stripGo_general x cs s c hbs hcm]
          by_cases hq : c = false ∧ x = '"'
          · simp only [if_pos hq]
            obtain ⟨rfl, rfl⟩ := hq
            rw [stripGo_general '"' (stripGo cs (SMode.plain (!s) false)) s false
              (by simp) (by simp)]
            rw [if_pos ⟨rfl, rfl⟩]
            rw [ih cs (!s) false (by omega)]
          · by_cases hsq : s = false ∧ x = squote
            · simp only [if_neg hq, if_pos hsq]
              obtain ⟨rfl, rfl⟩ := hsq
              rw [stripGo_general squote (stripGo cs (SMode.plain false (!c))) false c
                (by simp [squote]) (by simp [squote])]
              rw [if_neg (by rintro ⟨h1, h2⟩; exact hq ⟨h1, h2⟩)]
              rw [if_pos ⟨rfl, rfl⟩]
              rw [ih cs false (!c) (by omega)]
            · simp only [if_neg hq, if_neg hsq]
              have hcm2 : ¬ (x = '/' ∧ s = false ∧ c = false ∧
                  ((stripGo cs (SMode.plain s c)).head? = some '*' ∨
                   (stripGo cs (SMode.plain s c)).head? = some '/')) := by
                rintro ⟨rfl, rfl, rfl, hh2⟩
                cases cs with
                | nil => simp [stripGo] at hh2
                | cons d ds =>
                  have hd : d ≠ '*' ∧ d ≠ '/' := by
                    constructor
                    · intro hdd
                      exact hcm ⟨rfl, rfl, rfl, Or.inl (by simp [hdd])⟩
                    · intro hdd
                      exact hcm ⟨rfl, rfl, rfl, Or.inr (by simp [hdd])⟩
                  obtain ⟨t, ht⟩ := stripGo_head_cons d ds false false hd.2
                  rw [ht] at hh2
                  rcases hh2 with h2 | h2
                  · exact hd.1 (by simpa using h2)
                  · exact hd.2 (by simpa using h2)
              rw [stripGo_general x (stripGo cs (SMode.plain s c)) s c hbs hcm2]
              rw [if_neg hq, if_neg hsq]
              rw [ih cs s c (by omega)]

/-- C9: `strip` is idempotent — the output of `strip` contains no unquoted
comment delimiters (comments have been blanked to spaces and newlines, and
string contents are preserved verbatim), so a second application changes
nothing. -/
theorem strip_idempotent (l : List Char) : strip (strip l) = strip l :=
  stripGo_plain_idem l.length l false false (Nat.le_refl _)

/-- First comment-removal pass of `MemoryAnalyzer.analyzeGlobalVariables`
(memory-analyzer.js, line 603): `text.replace(/\/\/.*$/gm, base)` deleting each
line comment; the Bool flag is the currently-deleting state. -/
def dropLC : List Char → Bool → List Char
  | [], _ => []
  | c :: cs, true => if c = '\n' then c :: dropLC cs false else dropLC cs true
  | '/' :: '/' :: rest, false => dropLC rest true
  | c :: cs, false => c :: dropLC cs false

/-- Whether the text contains a `*/` closer (decides whether the lazy block
comment regex can match). -/
def containsClose : List Char → Bool
  | [] => false
  | '*' :: '/' :: _ => true
  | _ :: cs => containsClose cs

/-- Second comment-removal pass: `replace(/\/\*[\s\S]*?\*\//g, base)` deleting
each leftmost block comment; an unterminated `/*` (no closer anywhere after)
is left in place, exactly as the regex leaves it unmatched. -/
def dropBCGo : List Char → Bool → List Char
  | [], _ => []
  | '*' :: '/' :: rest, true => dropBCGo rest false
  | _ :: cs, true => dropBCGo cs true
  | '/' :: '*' :: rest, false =>
    if containsClose rest then dropBCGo rest true else '/' :: '*' :: rest
  | c :: cs, false => c :: dropBCGo cs false

/-- The `cleanText` of `analyzeGlobalVariables`: line comments removed, then
block comments removed. -/
def cleanText (text : List Char) : List Char :=
  dropBCGo (dropLC text false) false

/-- One iteration of the qualifier star `(?:static\s+|const\s+|volatile\s+)`
at the head of `l`. -/
def qualAt (l : List Char) : Option Nat :=
  if "static".toList.isPrefixOf l then
    let w := ((l.drop 6).takeWhile isJsSpace).length
    if w = 0 then none else some (6 + w)
  else if "const".toList.isPrefixOf l then
    let w := ((l.drop 5).takeWhile isJsSpace).length
    if w = 0 then none else some (5 + w)
  else if "volatile".toList.isPrefixOf l then
    let w := ((l.drop 8).takeWhile isJsSpace).length
    if w = 0 then none else some (8 + w)
  else none

/-- The greedy qualifier star.  (Backtracking into fewer iterations can never
help: no type alternative is a prefix of a qualifier keyword, so the greedy
reading is equivalent to the regex.)  Fuel is the text length. -/
def qualsLen : Nat → List Char → Nat
  | 0, _ => 0
  | fuel + 1, l =>
    match qualAt l with
    | some k => k + qualsLen fuel (l.drop k)
    | none => 0

/-- A single-keyword type alternative of the declaration regex. -/
def simpleType (w : String) (l : List Char) : Option Nat :=
  if w.toList.isPrefixOf l then some w.length else none

/-- A `unsigned\s+word` type alternative of the declaration regex. -/
def unsignedType (second : String) (l : List Char) : Option Nat :=
  if "unsigned".toList.isPrefixOf l then
    let w := ((l.drop 8).takeWhile isJsSpace).length
    if w = 0 then none
    else if second.toList.isPrefixOf ((l.drop 8).drop w) then some (8 + w + second.length)
    else none
  else none

/-- The type alternation of the declaration regex, in source order; the
regex engine tries these alternatives in order, backtracking to the next on
failure of the rest of the pattern. -/
def typeCandidates (l : List Char) : List Nat :=
  [simpleType "bool" l, simpleType "boolean" l, simpleType "byte" l, simpleType "char" l,
   unsignedType "char" l, simpleType "int" l, unsignedType "int" l, simpleType "short" l,
   unsignedType "short" l, simpleType "long" l, unsignedType "long" l, simpleType "float" l,
   simpleType "double" l, simpleType "int8_t" l, simpleType "uint8_t" l,
   simpleType "int16_t" l, simpleType "uint16_t" l, simpleType "int32_t" l,
   simpleType "uint32_t" l, simpleType "size_t" l, simpleType "String" l].filterMap id

/-- The trailing `\s*(?:=|;)` of the declaration regex. -/
def declFinish (r : List Char) : Option Nat :=
  let w2 := (r.takeWhile isJsSpace).length
  match (r.drop w2).head? with
  | some '=' => some (w2 + 1)
  | some ';' => some (w2 + 1)
  | _ => none

/-- The optional `(?:\[(\d+)\])?` group: bracket, digits, closing bracket. -/
def declBracket (r2 : List Char) : Option (Nat × Nat) :=
  match r2.head? with
  | some '[' =>
    let ds := (r2.drop 1).takeWhile Char.isDigit
    if ds = [] then none
    else if (r2.drop (1 + ds.length)).head? = some ']' then
      some (1 + ds.length + 1, decVal ds)
    else none
  | _ => none

/-- The `\s+(\w+)(?:\[(\d+)\])?\s*(?:=|;)` tail of the declaration regex
after the type: whitespace, identifier (greedy `\w+` is exact since the next
required character is never a word character), optional array size, then the
terminator, with regex backtracking over the optional group mirrored. -/
def declTail (l : List Char) : Option (Nat × List Char × Option Nat) :=
  let w1 := (l.takeWhile isJsSpace).length
  if w1 = 0 then none
  else
    let r1 := l.drop w1
    let name := r1.takeWhile isWordChar
    if name = [] then none
    else
      let r2 := r1.drop name.length
      match declBracket r2 with
      | some (bl, arr) =>
        match declFinish (r2.drop bl) with
        | some fl => some (w1 + name.length + bl + fl, name, some arr)
        | none =>
          match declFinish r2 with
          | some fl => some (w1 + name.length + fl, name, none)
          | none => none
      | none =>
        match declFinish r2 with
        | some fl => some (w1 + name.length + fl, name, none)
        | none => none

/-- A match of the global-variable declaration regex: total length, the raw
type capture, the identifier, and the optional array size. -/
structure DeclM where
  len : Nat
  typeRaw : List Char
  name : List Char
  arr : Option Nat
deriving DecidableEq

/-- Try the type alternatives in order, each continued by `declTail`;
first alternative whose continuation succeeds wins (regex alternation with
backtracking). -/
def tryTypeAlts (r1 : List Char) : List Nat → Option (Nat × Nat × List Char × Option Nat)
  | [] => none
  | tl :: rest =>
    match declTail (r1.drop tl) with
    | some (dl, name, arr) => some (tl, dl, name, arr)
    | none => tryTypeAlts r1 rest

/-- Match of the anchored global-variable declaration regex
`^(?:static\s+|const\s+|volatile\s+)*\s*(bool|boolean|...|String)\s+(\w+)(?:\[(\d+)\])?\s*(?:=|;)`
at the head of `l` (a line start). -/
def matchDeclAt (l : List Char) : Option DeclM :=
  let q := qualsLen l.length l
  let r0 := l.drop q
  let w0 := (r0.takeWhile isJsSpace).length
  let r1 := r0.drop w0
  match tryTypeAlts r1 (typeCandidates r1) with
  | some (tl, dl, name, arr) => some ⟨q + w0 + tl + dl, r1.take tl, name, arr⟩
  | none => none

/-- The multiline `exec` loop of the declaration regex: attempts only at line
starts, non-overlapping, `lastIndex` advancing past each match.  A match ends
in `=` or `;`, never a newline, so the position after a match is not a line
start. -/
def declScanGo : Nat → List Char → Nat → Bool → List (Nat × DeclM)
  | 0, _, _, _ => []
  | fuel + 1, l, idx, atLS =>
    match l with
    | [] => []
    | c :: cs =>
      if atLS then
        match matchDeclAt l with
        | some m => (idx, m) :: declScanGo fuel (l.drop m.len) (idx + m.len) false
        | none => declScanGo fuel cs (idx + 1) (c == '\n')
      else declScanGo fuel cs (idx + 1) (c == '\n')

/-- The `typeSizes` table of the `MemoryAnalyzer` constructor (AVR sizes).
The `void*` entry is unreachable through the declaration regex and omitted. -/
def typeSizes (t : List Char) : Option Nat :=
  if t = "bool".toList then some 1 else if t = "boolean".toList then some 1
  else if t = "byte".toList then some 1 else if t = "char".toList then some 1
  else if t = "unsigned char".toList then some 1
  else if t = "int".toList then some 2 else if t = "unsigned int".toList then some 2
  else if t = "short".toList then some 2 else if t = "unsigned short".toList then some 2
  else if t = "long".toList then some 4 else if t = "unsigned long".toList then some 4
  else if t = "float".toList then some 4 else if t = "double".toList then some 4
  else if t = "int8_t".toList then some 1 else if t = "uint8_t".toList then some 1
  else if t = "int16_t".toList then some 2 else if t = "uint16_t".toList then some 2
  else if t = "int32_t".toList then some 4 else if t = "uint32_t".toList then some 4
  else if t = "size_t".toList then some 2
  else none

/-- The operator class `[=+\-*/&|<>!,]` of the liveness read pattern. -/
def opChar (c : Char) : Bool :=
  c = '=' || c = '+' || c = '-' || c = '*' || c = '/' || c = '&' ||
  c = '|' || c = '<' || c = '>' || c = '!' || c = ','

/-- A `\b` boundary immediately before an identifier: start of text or a
non-word predecessor. -/
def boundaryOk (prev : Option Char) : Bool :=
  match prev with
  | none => true
  | some p => !(isWordChar p)

/-- Match of one alternative of the read pattern
`\bN\s*\[|\bN\s*\)|[=+\-*/&|<>!,]\s*\bN\b` at the head of `l`
(`prev` is the preceding character for the boundary check). -/
def readAt (name : List Char) (prev : Option Char) (l : List Char) : Bool :=
  (boundaryOk prev && name.isPrefixOf l &&
    (let r := l.drop name.length
     let w := (r.takeWhile isJsSpace).length
     (r.drop w).head? = some '[' || (r.drop w).head? = some ')')) ||
  (match l with
   | op :: r =>
     opChar op &&
       (let w := (r.takeWhile isJsSpace).length
        let r2 := r.drop w
        name.isPrefixOf r2 &&
          (match (r2.drop name.length).head? with
           | some nx => !(isWordChar nx)
           | none => true))
   | [] => false)

/-- `readPattern.test(afterDeclaration)`: some position matches. -/
def readTestGo (name : List Char) : List Char → Option Char → Bool
  | [], _ => false
  | l@(c :: cs), prev => readAt name prev l || readTestGo name cs (some c)

/-- The `.*\]\s*=` part of the write pattern: some `]` on the current line
(`.` does not match newlines) followed by optional whitespace and `=`. -/
def brEq : List Char → Bool
  | [] => false
  | c :: cs =>
    (c = ']' &&
      (let w := (cs.takeWhile isJsSpace).length
       (cs.drop w).head? = some '=')) ||
    (!(c = '\n') && brEq cs)

/-- Match of one alternative of the write pattern
`\bN\s*\[.*\]\s*=|\bN\s*=` at the head of `l`. -/
def writeAt (name : List Char) (prev : Option Char) (l : List Char) : Bool :=
  boundaryOk prev && name.isPrefixOf l &&
    (let r := l.drop name.length
     let w := (r.takeWhile isJsSpace).length
     let r2 := r.drop w
     match r2.head? with
     | some '[' => brEq (r2.drop 1)
     | some '=' => true
     | _ => false)

/-- `writePattern.test(afterDeclaration)`. -/
def writeTestGo (name : List Char) : List Char → Option Char → Bool
  | [], _ => false
  | l@(c :: cs), prev => writeAt name prev l || writeTestGo name cs (some c)

/-- The liveness check of `analyzeGlobalVariables`: the identifier is read or
written somewhere after its declaration. -/
def isUsedAfter (name after : List Char) : Bool :=
  readTestGo name after none || writeTestGo name after none

/-- Size computation for one matched declaration: Arduino `String` objects
cost 6 bytes each, `char` arrays their length, other types their table size
(default 4) times the array size. -/
def declSize (m : DeclM) : Nat :=
  let arraySize := m.arr.getD 1
  if m.typeRaw = "String".toList then 6 * arraySize
  else if m.typeRaw = "char".toList ∧ 1 < arraySize then arraySize
  else (typeSizes m.typeRaw).getD 4 * arraySize

/-- The brace-balance global-scope heuristic: open-brace count of the prefix
not exceeding the close-brace count. -/
def globalScopeAt (clean : List Char) (idx : Nat) : Bool :=
  (clean.take idx).count '{' ≤ (clean.take idx).count '}'

/-- Bytes contributed to `ram.globalVariables` by one declaration match:
zero when nested in braces or never referenced afterwards. -/
def declContribution (clean : List Char) (idx : Nat) (m : DeclM) : Nat :=
  if globalScopeAt clean idx then
    if isUsedAfter m.name (clean.drop (idx + m.len)) then declSize m else 0
  else 0

/-- Match of `struct\s+(\w+)\s*{([^}]+)}` at the head of `l`. -/
def structMatchAt (l : List Char) : Option (Nat × List Char × List Char) :=
  if "struct".toList.isPrefixOf l then
    let r := l.drop 6
    let w1 := (r.takeWhile isJsSpace).length
    if w1 = 0 then none
    else
      let r1 := r.drop w1
      let name := r1.takeWhile isWordChar
      if name = [] then none
      else
        let r2 := r1.drop name.length
        let w2 := (r2.takeWhile isJsSpace).length
        let r3 := r2.drop w2
        if r3.head? = some '{' then
          let body := (r3.drop 1).takeWhile (fun ch => !(ch = '}'))
          if body = [] then none
          else if (r3.drop (1 + body.length)).head? = some '}' then
            some (6 + w1 + name.length + w2 + 1 + body.length + 1, name, body)
          else none
        else none
  else none

/-- `exec` loop of the struct-definition regex. -/
def structScanGo : Nat → List Char → List (List Char × List Char)
  | 0, _ => []
  | fuel + 1, l =>
    match l with
    | [] => []
    | _ :: cs =>
      match structMatchAt l with
      | some (len, name, body) => (name, body) :: structScanGo fuel (l.drop len)
      | none => structScanGo fuel cs

/-- The `\s+(\w+)(?:\[(\d+)\])?;` tail of the struct-member regex (note: no
whitespace is allowed before the semicolon). -/
def memberTail (l : List Char) : Option (Nat × Option Nat) :=
  let w := (l.takeWhile isJsSpace).length
  if w = 0 then none
  else
    let r := l.drop w
    let nm := r.takeWhile isWordChar
    if nm = [] then none
    else
      let r2 := r.drop nm.length
      match declBracket r2 with
      | some (bl, arr) =>
        if (r2.drop bl).head? = some ';' then some (w + nm.length + bl + 1, some arr)
        else if r2.head? = some ';' then some (w + nm.length + 1, none)
        else none
      | none =>
        if r2.head? = some ';' then some (w + nm.length + 1, none) else none

/-- The member pattern after the optional `const`: group 1 is
`\w+(?:\s+\w+)?` (greedy optional second word, with backtracking), then the
member tail. -/
def memberCore (l2 : List Char) : Option (Nat × List Char × Option Nat) :=
  let t1 := l2.takeWhile isWordChar
  if t1 = [] then none
  else
    let r1 := l2.drop t1.length
    let w := (r1.takeWhile isJsSpace).length
    let attempt2 : Option (Nat × List Char × Option Nat) :=
      if w = 0 then none
      else
        let t2 := (r1.drop w).takeWhile isWordChar
        if t2 = [] then none
        else
          match memberTail (r1.drop (w + t2.length)) with
          | some (tl, arr) => some (t1.length + w + t2.length + tl, t1 ++ r1.take w ++ t2, arr)
          | none => none
    match attempt2 with
    | some res => some res
    | none =>
      match memberTail r1 with
      | some (tl, arr) => some (t1.length + tl, t1, arr)
      | none => none

/-- Match of the struct-member regex
`(?:const\s+)?(\w+(?:\s+\w+)?)\s+(\w+)(?:\[(\d+)\])?;` with the optional
`const\s+` tried greedily first. -/
def memberMatchAt (l : List Char) : Option (Nat × List Char × Option Nat) :=
  if "const".toList.isPrefixOf l then
    let w := ((l.drop 5).takeWhile isJsSpace).length
    if w = 0 then memberCore l
    else
      match memberCore ((l.drop 5).drop w) with
      | some (len, t, arr) => some (5 + w + len, t, arr)
      | none => memberCore l
  else memberCore l

/-- `exec` loop of the member regex over a struct body. -/
def memberScanGo : Nat → List Char → List (List Char × Option Nat)
  | 0, _ => []
  | fuel + 1, l =>
    match l with
    | [] => []
    | _ :: cs =>
      match memberMatchAt l with
      | some (len, t, arr) => (t, arr) :: memberScanGo fuel (l.drop len)
      | none => memberScanGo fuel cs

/-- Per-instance size of a struct: sum over members of type size (default 4)
times member array size. -/
def structBodySize (body : List Char) : Nat :=
  ((memberScanGo body.length body).map
    (fun p => (typeSizes p.1).getD 4 * p.2.getD 1)).sum

/-- JavaScript `Map.set`: overwrite an existing key in place, else append. -/
def upsert (m : List (List Char × Nat)) (k : List Char) (v : Nat) : List (List Char × Nat) :=
  if m.any (fun p => p.1 = k) then m.map (fun p => if p.1 = k then (p.1, v) else p)
  else m ++ [(k, v)]

/-- The `structInstances` map: struct name to per-instance size, in insertion
order. -/
def structDefs (clean : List Char) : List (List Char × Nat) :=
  (structScanGo clean.length clean).foldl (fun m p => upsert m p.1 (structBodySize p.2)) []

/-- Match of the per-struct instance regex
`\bS\s+(\w+)(?:\[(\d+)\])?\s*[;=]` at the head of `l`. -/
def instMatchAt (sName : List Char) (prev : Option Char) (l : List Char) :
    Option (Nat × Nat) :=
  if boundaryOk prev && sName.isPrefixOf l then
    let r := l.drop sName.length
    let w1 := (r.takeWhile isJsSpace).length
    if w1 = 0 then none
    else
      let r1 := r.drop w1
      let nm := r1.takeWhile isWordChar
      if nm = [] then none
      else
        let r2 := r1.drop nm.length
        match declBracket r2 with
        | some (bl, arr) =>
          match declFinish (r2.drop bl) with
          | some fl => some (sName.length + w1 + nm.length + bl + fl, arr)
          | none =>
            match declFinish r2 with
            | some fl => some (sName.length + w1 + nm.length + fl, 1)
            | none => none
        | none =>
          match declFinish r2 with
          | some fl => some (sName.length + w1 + nm.length + fl, 1)
          | none => none
  else none

/-- `exec` loop of the instance regex, tracking the previous character for
the `\b` boundary. -/
def instScanGo (sName : List Char) : Nat → List Char → Nat → Option Char → List (Nat × Nat)
  | 0, _, _, _ => []
  | fuel + 1, l, idx, prev =>
    match l with
    | [] => []
    | c :: cs =>
      match instMatchAt sName prev l with
      | some (len, count) =>
        (idx, count) :: instScanGo sName fuel (l.drop len) (idx + len)
          ((l.take len).getLast? )
      | none => instScanGo sName fuel cs (idx + 1) (some c)

/-- The `ram.globalVariables` value computed by
`MemoryAnalyzer.analyzeGlobalVariables` (memory-analyzer.js, lines 601-709):
contributions of global declarations plus struct instances at brace-balanced
positions. -/
def analyzeGlobalsTotal (text : List Char) : Nat :=
  let clean := cleanText text
  ((declScanGo clean.length clean 0 true).map
      (fun p => declContribution clean p.1 p.2)).sum +
    ((structDefs clean).map
      (fun p =>
        ((instScanGo p.1 clean.length clean 0 none).map
          (fun q => if globalScopeAt clean q.1 then p.2 * q.2 else 0)).sum)).sum



/-- C8 counterexample: adding the new, distinct, subsequently-referenced
global declaration `int y;` (with reference `y = 1;`) to the sketch
`int x[100];\nq =\nx;\n` on fresh lines before the final statement DECREASES
`ram.globalVariables` from 200 to 2: the inserted lines separate the `=`
operator from the identifier `x` of the only reference to `x`, so the
liveness regex no longer finds a read of `x` and the 200-byte array is
zero-sized, while `y` only adds 2 bytes. -/
theorem analyzeGlobals_not_monotone :
    analyzeGlobalsTotal "int x[100];\nq =\nx;\n".toList = 200 ∧
    analyzeGlobalsTotal "int x[100];\nq =\nint y;\ny = 1;\nx;\n".toList = 2 := by
  decide

def wordOrWs (c : Char) : Bool := isWordChar c || isJsSpace c

def extText (name : List Char) : List Char :=
  '\n' :: 'i' :: 'n' :: 't' :: ' ' ::
    (name ++ ';' :: '\n' :: (name ++ ' ' :: '=' :: ' ' :: '1' :: ';' :: '\n' :: []))

theorem tw_app_lt {p : Char → Bool} : ∀ (a b : List Char),
    (a.takeWhile p).length < a.length →
    (a ++ b).takeWhile p = a.takeWhile p := by
  intro a
  induction a with
  | nil => intro b h; simp at h
  | cons x xs ih =>
    intro b h
    by_cases hp : p x
    · simp only [List.takeWhile_cons, hp, if_true, List.cons_append, List.length_cons] at h ⊢
      rw [ih b (by simpa using h)]
    · simp only [List.takeWhile_cons, hp, if_false, List.cons_append]
      simp [hp]

theorem tw_app_all {p : Char → Bool} : ∀ (a b : List Char), (∀ x ∈ a, p x = true) →
    (a ++ b).takeWhile p = a ++ b.takeWhile p := by
  intro a
  induction a with
  | nil => intro b _; rfl
  | cons x xs ih =>
    intro b h
    have hx := h x (by simp)
    simp only [List.cons_append, List.takeWhile_cons, hx, if_true]
    rw [ih b (fun y hy => h y (by simp [hy]))]

theorem tw_len_le {p : Char → Bool} (a : List Char) : (a.takeWhile p).length ≤ a.length :=
  (List.takeWhile_prefix p).length_le

theorem tw_full_all {p : Char → Bool} (a : List Char)
    (h : (a.takeWhile p).length = a.length) : ∀ x ∈ a, p x = true := by
  have hpre := List.takeWhile_prefix (l := a) p
  have : a.takeWhile p = a := List.IsPrefix.eq_of_length hpre h
  exact fun x hx => List.takeWhile_eq_self_iff.mp this x hx

theorem tw_headstop {p : Char → Bool} (a b : List Char) (c : Char)
    (hb : b.head? = some c) (hc : p c = false) :
    (a ++ b).takeWhile p = a.takeWhile p := by
  rcases Nat.lt_or_ge (a.takeWhile p).length a.length with h | h
  · exact tw_app_lt a b h
  · have hall := tw_full_all a (Nat.le_antisymm (tw_len_le a) h)
    rw [tw_app_all a b hall]
    have : a.takeWhile p = a := List.takeWhile_eq_self_iff.mpr hall
    rw [this]
    cases b with
    | nil => simp
    | cons y ys =>
      have : y = c := by simpa using hb
      subst this
      simp [List.takeWhile_cons, hc]

theorem prefix_append_stable (s : List Char) : ∀ (a b : List Char),
    '\n' ∉ s → b.head? = some '\n' →
    s.isPrefixOf (a ++ b) = s.isPrefixOf a := by
  induction s with
  | nil => intro a b _ _; cases a <;> simp [List.isPrefixOf]
  | cons c s2 ih =>
    intro a b hs hb
    cases a with
    | nil =>
      cases b with
      | nil => simp at hb
      | cons y ys =>
        have hy : y = '\n' := by simpa using hb
        subst hy
        have hc : c ≠ '\n' := by intro h; exact hs (by simp [h])
        simp [List.isPrefixOf, hc]
    | cons x a2 =>
      simp only [List.cons_append, List.isPrefixOf]
      by_cases hcx : c == x
      · simp only [hcx, Bool.true_and]
        exact ih a2 b (fun h => hs (by simp [h])) hb
      · simp [hcx]

theorem isPrefixOf_append_left (s : List Char) : ∀ (a b : List Char),
    s.isPrefixOf a = true → s.isPrefixOf (a ++ b) = true := by
  induction s with
  | nil => intro a b _; cases a <;> simp [List.isPrefixOf]
  | cons c s2 ih =>
    intro a b h
    cases a with
    | nil => simp [List.isPrefixOf] at h
    | cons x a2 =>
      simp only [List.isPrefixOf, Bool.and_eq_true] at h ⊢
      exact ⟨h.1, ih a2 b h.2⟩

theorem isPrefixOf_length_le (s : List Char) : ∀ (a : List Char),
    s.isPrefixOf a = true → s.length ≤ a.length := by
  induction s with
  | nil => intro a _; simp
  | cons c s2 ih =>
    intro a h
    cases a with
    | nil => simp [List.isPrefixOf] at h
    | cons x a2 =>
      simp only [List.isPrefixOf, Bool.and_eq_true] at h
      simpa using ih a2 h.2

theorem extText_head (name : List Char) : (extText name).head? = some '\n' := rfl

theorem extText_ws (name : List Char) :
    (extText name).takeWhile isJsSpace = ['\n'] := by
  have h1 : isJsSpace '\n' = true := by decide
  have h2 : isJsSpace 'i' = false := by decide
  simp [extText, List.takeWhile_cons, h1, h2]

theorem extText_word (name : List Char) :
    (extText name).takeWhile isWordChar = [] := by
  have h1 : isWordChar '\n' = false := by decide
  simp [extText, List.takeWhile_cons, h1]

theorem extText_chars (name : List Char) (ch : Char) (h : ch ∈ extText name) :
    ch ∈ name ∨ isWordChar ch = true ∨ ch = '\n' ∨ ch = ' ' ∨ ch = ';' ∨ ch = '=' := by
  simp [extText] at h
  rcases h with h|h|h|h|h|h|h|h|h|h|h|h|h|h|h
  all_goals first
    | exact Or.inl h
    | exact Or.inr (Or.inr (Or.inl h))
    | exact Or.inr (Or.inr (Or.inr (Or.inl h)))
    | exact Or.inr (Or.inr (Or.inr (Or.inr (Or.inl h))))
    | exact Or.inr (Or.inr (Or.inr (Or.inr (Or.inr h))))
    | (subst h; exact Or.inr (Or.inl (by decide)))

theorem word_not_space (c : Char) (h : isWordChar c = true) : isJsSpace c = false := by
  have h1 : c ≠ ' ' := fun e => by subst e; exact absurd h (by decide)
  have h2 : c ≠ '\t' := fun e => by subst e; exact absurd h (by decide)
  have h3 : c ≠ '\n' := fun e => by subst e; exact absurd h (by decide)
  have h4 : c ≠ '\r' := fun e => by subst e; exact absurd h (by decide)
  have h5 : c ≠ Char.ofNat 11 := fun e => by subst e; exact absurd h (by decide)
  have h6 : c ≠ Char.ofNat 12 := fun e => by subst e; exact absurd h (by decide)
  simp [isJsSpace, h1, h2, h3, h4, h5, h6]

theorem drop_append_past (a b : List Char) (n : Nat) :
    (a ++ b).drop (a.length + n) = b.drop n := by
  rw [← List.drop_drop, List.drop_left]

theorem head_append_ne_nil (a b : List Char) (h : a ≠ []) :
    (a ++ b).head? = a.head? := by
  cases a with
  | nil => exact absurd rfl h
  | cons x xs => rfl

theorem declFinish_extText (name : List Char) :
    declFinish (extText name) = none := by
  simp only [declFinish, extText_ws]
  have e2 : (extText name).drop 1 = 'i' :: 'n' :: 't' :: ' ' ::
      (name ++ ';' :: '\n' :: (name ++ [' ', '=', ' ', '1', ';', '\n'])) := rfl
  simp [e2]

theorem declBracket_extText (name : List Char) :
    declBracket (extText name) = none := rfl

theorem declFinish_stab (name : List Char) (r : List Char) :
    declFinish (r ++ extText name) = declFinish r := by
  simp only [declFinish]
  rcases Nat.lt_or_ge (r.takeWhile isJsSpace).length r.length with h | h
  · rw [tw_app_lt r _ h]
    rw [List.drop_append_of_le_length (Nat.le_of_lt h)]
    rw [head_append_ne_nil _ _ (by rw [Ne, List.drop_eq_nil_iff]; omega)]
  · have hfull : (r.takeWhile isJsSpace).length = r.length :=
      Nat.le_antisymm (tw_len_le r) h
    have hall := tw_full_all r hfull
    rw [tw_app_all r _ hall, extText_ws]
    have e1 : (r ++ ['\n']).length = r.length + 1 := by simp
    rw [e1, drop_append_past]
    have e3 : ((extText name).drop 1).head? = some 'i' := rfl
    rw [e3, hfull]
    have e5 : r.drop r.length = [] := by simp
    rw [e5]
    rfl

theorem declBracket_stab (name : List Char) (r2 : List Char) :
    declBracket (r2 ++ extText name) = declBracket r2 := by
  cases r2 with
  | nil => rw [List.nil_append, declBracket_extText]; rfl
  | cons y ys =>
    simp only [declBracket, List.cons_append, List.head?_cons]
    by_cases hy : y = '['
    · subst hy
      have hds : ((ys ++ extText name).takeWhile Char.isDigit) = ys.takeWhile Char.isDigit :=
        tw_headstop ys _ '\n' rfl (by decide)
      have e0 : ('[' :: (ys ++ extText name)).drop 1 = ys ++ extText name := rfl
      have e1 : ('[' :: ys).drop 1 = ys := rfl
      rw [e0, e1, hds]
      by_cases hempty : ys.takeWhile Char.isDigit = []
      · simp [hempty]
      · simp only [hempty, if_false]
        have hdl : (ys.takeWhile Char.isDigit).length ≤ ys.length := tw_len_le ys
        have e2 : ∀ (z : List Char), ('[' :: z).drop (1 + (ys.takeWhile Char.isDigit).length)
            = z.drop (ys.takeWhile Char.isDigit).length := by
          intro z
          rw [Nat.add_comm, List.drop_succ_cons]
        rw [e2, e2]
        rcases Nat.lt_or_ge (ys.takeWhile Char.isDigit).length ys.length with hlt | hge
        · rw [List.drop_append_of_le_length (Nat.le_of_lt hlt)]
          rw [head_append_ne_nil _ _ (by rw [Ne, List.drop_eq_nil_iff]; omega)]
        · have heq : (ys.takeWhile Char.isDigit).length = ys.length :=
            Nat.le_antisymm hdl hge
          rw [List.drop_left' heq.symm]
          have e4 : ys.drop (ys.takeWhile Char.isDigit).length = [] := by
            rw [List.drop_eq_nil_iff]; omega
          rw [e4]
          rfl
    · split
      · rename_i heq
        exact absurd (by simpa using heq) hy
      · rfl

theorem declBracket_len_le (r2 : List Char) (bl arr : Nat)
    (h : declBracket r2 = some (bl, arr)) : 1 ≤ bl ∧ bl ≤ r2.length := by
  simp only [declBracket] at h
  cases hh : r2.head? with
  | none => rw [hh] at h; exact absurd h (by simp)
  | some y =>
    rw [hh] at h
    by_cases hy : y = '['
    · subst hy
      simp only at h
      by_cases hds : (r2.drop 1).takeWhile Char.isDigit = []
      · rw [if_pos hds] at h; exact absurd h (by simp)
      · rw [if_neg hds] at h
        by_cases hcl : (r2.drop (1 + ((r2.drop 1).takeWhile Char.isDigit).length)).head?
            = some ']'
        · rw [if_pos hcl] at h
          have hbl : 1 + ((r2.drop 1).takeWhile Char.isDigit).length + 1 = bl :=
            congrArg Prod.fst (Option.some.inj h)
          have hlen : ¬ r2.length ≤ 1 + ((r2.drop 1).takeWhile Char.isDigit).length := by
            intro hle
            rw [List.head?_eq_none_iff.mpr (by rw [List.drop_eq_nil_iff]; omega)] at hcl
            exact Option.noConfusion hcl
          omega
        · rw [if_neg hcl] at h; exact absurd h (by simp)
    · cases y with
      | mk v hv =>
        revert h
        split
        · rename_i heq
          intro h
          exact absurd (by simpa using heq) hy
        · intro h
          exact absurd h (by simp)

theorem declFinish_spaceName (name : List Char) (hn1 : name ≠ [])
    (hn2 : ∀ c ∈ name, isWordChar c = true) (tail : List Char) :
    declFinish (' ' :: (name ++ tail)) = none := by
  obtain ⟨nh, nt, hname⟩ : ∃ nh nt, name = nh :: nt := by
    cases name with
    | nil => exact absurd rfl hn1
    | cons a b => exact ⟨a, b, rfl⟩
  have hnh : isWordChar nh = true := hn2 nh (by rw [hname]; simp)
  subst hname
  simp only [declFinish]
  have e1 : ((' ' :: ((nh :: nt) ++ tail)).takeWhile isJsSpace) = [' '] := by
    simp [List.takeWhile_cons, word_not_space nh hnh]
    decide
  rw [e1]
  have e2 : (List.drop ([' '] : List Char).length (' ' :: ((nh :: nt) ++ tail))).head?
      = some nh := rfl
  rw [e2]
  have hne1 : nh ≠ '=' := fun e => by subst e; exact absurd hnh (by decide)
  have hne2 : nh ≠ ';' := fun e => by subst e; exact absurd hnh (by decide)
  split
  · rename_i heq
    exact absurd (by simpa using heq) hne1
  · rename_i heq
    exact absurd (by simpa using heq) hne2
  · rfl

theorem declTail_extText (name : List Char) (hn1 : name ≠ [])
    (hn2 : ∀ c ∈ name, isWordChar c = true) :
    declTail ((extText name).drop 1) = none := by
  simp only [declTail]
  have e1 : (((extText name).drop 1).takeWhile isJsSpace).length = 0 := rfl
  rw [e1]
  rfl

theorem declTail_stab (name : List Char) (hn1 : name ≠ [])
    (hn2 : ∀ c ∈ name, isWordChar c = true) (l : List Char) :
    declTail (l ++ extText name) = declTail l := by
  rcases Nat.lt_or_ge (l.takeWhile isJsSpace).length l.length with h | h
  · -- the leading whitespace run stops inside l
    simp only [declTail]
    rw [tw_app_lt l _ h]
    by_cases hw0 : (l.takeWhile isJsSpace).length = 0
    · rw [if_pos hw0, if_pos hw0]
    · rw [if_neg hw0, if_neg hw0]
      rw [List.drop_append_of_le_length (Nat.le_of_lt h)]
      rw [tw_headstop (l.drop (l.takeWhile isJsSpace).length) (extText name) '\n'
        (extText_head name) (by decide)]
      by_cases hnm : (l.drop (l.takeWhile isJsSpace).length).takeWhile isWordChar = []
      · rw [if_pos hnm, if_pos hnm]
      · rw [if_neg hnm, if_neg hnm]
        have hnl : ((l.drop (l.takeWhile isJsSpace).length).takeWhile isWordChar).length
            ≤ (l.drop (l.takeWhile isJsSpace).length).length :=
          tw_len_le _
        rcases Nat.lt_or_ge
            ((l.drop (l.takeWhile isJsSpace).length).takeWhile isWordChar).length
            (l.drop (l.takeWhile isJsSpace).length).length with hlt | hge
        · rw [List.drop_append_of_le_length (Nat.le_of_lt hlt)]
          rw [declBracket_stab name]
          split
          · rename_i bl arr hbr
            have hble := (declBracket_len_le _ _ _ hbr).2
            rw [List.drop_append_of_le_length hble]
            rw [declFinish_stab name, declFinish_stab name]
          · rename_i hbr
            rw [declFinish_stab name]
        · have heq2 : ((l.drop (l.takeWhile isJsSpace).length).takeWhile isWordChar).length
              = (l.drop (l.takeWhile isJsSpace).length).length := Nat.le_antisymm hnl hge
          have e1 : (l.drop (l.takeWhile isJsSpace).length).drop
              ((l.drop (l.takeWhile isJsSpace).length).takeWhile isWordChar).length = [] := by
            rw [List.drop_eq_nil_iff]; omega
          rw [List.drop_left' heq2.symm, e1]
          rw [declBracket_extText]
          have e2 : declBracket ([] : List Char) = none := rfl
          rw [e2]
          have e3 : declFinish (extText name) = none := declFinish_extText name
          have e4 : declFinish ([] : List Char) = none := rfl
          rw [e3, e4]
  · -- l is all whitespace
    have hfull : (l.takeWhile isJsSpace).length = l.length := Nat.le_antisymm (tw_len_le l) h
    have hall := tw_full_all l hfull
    have hLHS : declTail (l ++ extText name) = none := by
      simp only [declTail]
      rw [tw_app_all l _ hall, extText_ws]
      have e1 : (l ++ ['\n']).length = l.length + 1 := by simp
      rw [e1]
      rw [if_neg (by omega)]
      rw [drop_append_past]
      have e2 : ((extText name).drop 1).takeWhile isWordChar = ['i', 'n', 't'] := rfl
      rw [e2]
      rw [if_neg (by simp)]
      have e3 : ((extText name).drop 1).drop (['i', 'n', 't'] : List Char).length
          = ' ' :: (name ++ ';' :: '\n' :: (name ++ [' ', '=', ' ', '1', ';', '\n'])) := rfl
      rw [e3]
      have e4 : declBracket (' ' :: (name ++ ';' :: '\n'
          :: (name ++ [' ', '=', ' ', '1', ';', '\n']))) = none := rfl
      rw [e4]
      rw [declFinish_spaceName name hn1 hn2]
    have hRHS : declTail l = none := by
      simp only [declTail]
      by_cases hw0 : (l.takeWhile isJsSpace).length = 0
      · rw [if_pos hw0]
      · rw [if_neg hw0]
        have e1 : l.drop (l.takeWhile isJsSpace).length = [] := by
          rw [List.drop_eq_nil_iff]; omega
        rw [e1]
        rfl
    rw [hLHS, hRHS]

theorem extText_not_mem (nm : List Char) (hw : ∀ c ∈ nm, isWordChar c = true)
    (ch : Char) (h0 : isWordChar ch = false) (h1 : ch ≠ '\n') (h2 : ch ≠ ' ')
    (h3 : ch ≠ ';') (h4 : ch ≠ '=') : ch ∉ extText nm := by
  intro hmem
  rcases extText_chars nm ch hmem with h | h | h | h | h | h
  · exact absurd (hw ch h) (by simp [h0])
  · exact absurd h (by simp [h0])
  · exact h1 h
  · exact h2 h
  · exact h3 h
  · exact h4 h

theorem dropLC_true_cons (c : Char) (cs : List Char) :
    dropLC (c :: cs) true = if c = '\n' then c :: dropLC cs false else dropLC cs true := by
  rw [dropLC.eq_def]
  split <;> simp_all

theorem dropLC_false_open (rest : List Char) :
    dropLC ('/' :: '/' :: rest) false = dropLC rest true := rfl

theorem dropLC_false_cons (c : Char) (cs : List Char)
    (h : ¬(c = '/' ∧ cs.head? = some '/')) :
    dropLC (c :: cs) false = c :: dropLC cs false := by
  rw [dropLC.eq_def]
  split <;> simp_all

theorem dropLC_no_slash : ∀ (a : List Char), ('/' : Char) ∉ a → dropLC a false = a := by
  intro a
  induction a with
  | nil => intro _; rfl
  | cons c cs ih =>
    intro h
    have hc : c ≠ '/' := fun e => h (by simp [e])
    rw [dropLC_false_cons c cs (fun hp => hc hp.1)]
    rw [ih (fun hm => h (by simp [hm]))]

theorem slash_not_word : isWordChar '/' = false := by decide

theorem extText_no_slash (nm : List Char) (hw : ∀ c ∈ nm, isWordChar c = true) :
    ('/' : Char) ∉ extText nm :=
  extText_not_mem nm hw '/' (by decide) (by decide) (by decide) (by decide) (by decide)

theorem dropLC_extText (nm : List Char) (hw : ∀ c ∈ nm, isWordChar c = true) :
    ∀ b, dropLC (extText nm) b = extText nm := by
  have htail : dropLC ((extText nm).drop 1) false = (extText nm).drop 1 := by
    apply dropLC_no_slash
    intro hm
    exact extText_no_slash nm hw (List.mem_of_mem_drop hm)
  intro b
  cases b with
  | true =>
    show dropLC ('\n' :: (extText nm).drop 1) true = extText nm
    rw [dropLC_true_cons]
    rw [if_pos rfl, htail]
    rfl
  | false =>
    show dropLC ('\n' :: (extText nm).drop 1) false = extText nm
    rw [dropLC_false_cons _ _ (fun hp => by exact absurd hp.1 (by decide))]
    rw [htail]
    rfl

theorem dropLC_append (nm : List Char) (hw : ∀ c ∈ nm, isWordChar c = true) :
    ∀ (n : Nat) (a : List Char) (b : Bool), a.length ≤ n →
    dropLC (a ++ extText nm) b = dropLC a b ++ extText nm := by
  intro n
  induction n with
  | zero =>
    intro a b h
    have : a = [] := by
      cases a with
      | nil => rfl
      | cons x xs => simp at h
    subst this
    simp only [List.nil_append, dropLC_extText nm hw]
    cases b <;> rfl
  | succ n ih =>
    intro a b h
    cases a with
    | nil =>
      simp only [List.nil_append, dropLC_extText nm hw]
      cases b <;> rfl
    | cons c cs =>
      cases b with
      | true =>
        rw [List.cons_append, dropLC_true_cons, dropLC_true_cons]
        by_cases hc : c = '\n'
        · rw [if_pos hc, if_pos hc, ih cs false (by simpa using h)]
          rfl
        · rw [if_neg hc, if_neg hc, ih cs true (by simpa using h)]
      | false =>
        by_cases hp : c = '/' ∧ cs.head? = some '/'
        · obtain ⟨hc, hh⟩ := hp
          obtain ⟨rest, hcs⟩ : ∃ rest, cs = '/' :: rest := by
            cases cs with
            | nil => simp at hh
            | cons d ds =>
              have hd : d = '/' := by simpa using hh
              exact ⟨ds, by rw [hd]⟩
          subst hc; subst hcs
          rw [List.cons_append, List.cons_append, dropLC_false_open, dropLC_false_open]
          exact ih rest true (by simp at h; omega)
        · have hp2 : ¬(c = '/' ∧ (cs ++ extText nm).head? = some '/') := by
            intro hq
            rcases hq with ⟨hc, hh⟩
            apply hp
            refine ⟨hc, ?_⟩
            cases cs with
            | nil =>
              simp only [List.nil_append] at hh
              rw [extText_head nm] at hh
              simp at hh
            | cons d ds => simpa using hh
          rw [List.cons_append, dropLC_false_cons _ _ hp2, dropLC_false_cons _ _ hp]
          rw [ih cs false (by simpa using h)]
          rfl

theorem containsClose_cons (c : Char) (cs : List Char)
    (h : ¬(c = '*' ∧ cs.head? = some '/')) :
    containsClose (c :: cs) = containsClose cs := by
  rw [containsClose.eq_def]
  split <;> simp_all

theorem containsClose_no_star : ∀ (a : List Char), ('*' : Char) ∉ a →
    containsClose a = false := by
  intro a
  induction a with
  | nil => intro _; rfl
  | cons c cs ih =>
    intro h
    have hc : c ≠ '*' := fun e => h (by simp [e])
    rw [containsClose_cons c cs (fun hp => hc hp.1)]
    exact ih (fun hm => h (by simp [hm]))

theorem extText_no_star (nm : List Char) (hw : ∀ c ∈ nm, isWordChar c = true) :
    ('*' : Char) ∉ extText nm :=
  extText_not_mem nm hw '*' (by decide) (by decide) (by decide) (by decide) (by decide)

theorem containsClose_extText (nm : List Char) (hw : ∀ c ∈ nm, isWordChar c = true) :
    containsClose (extText nm) = false :=
  containsClose_no_star _ (extText_no_star nm hw)

theorem containsClose_append (nm : List Char) (hw : ∀ c ∈ nm, isWordChar c = true) :
    ∀ (n : Nat) (a : List Char), a.length ≤ n →
    containsClose (a ++ extText nm) = containsClose a := by
  intro n
  induction n with
  | zero =>
    intro a h
    have : a = [] := by
      cases a with
      | nil => rfl
      | cons x xs => simp at h
    subst this
    simpa using containsClose_extText nm hw
  | succ n ih =>
    intro a h
    cases a with
    | nil => simpa using containsClose_extText nm hw
    | cons c cs =>
      by_cases hp : c = '*' ∧ cs.head? = some '/'
      · obtain ⟨hc, hh⟩ := hp
        obtain ⟨rest, hcs⟩ : ∃ rest, cs = '/' :: rest := by
          cases cs with
          | nil => simp at hh
          | cons d ds =>
            have hd : d = '/' := by simpa using hh
            exact ⟨ds, by rw [hd]⟩
        subst hc; subst hcs
        rfl
      · have hp2 : ¬(c = '*' ∧ (cs ++ extText nm).head? = some '/') := by
          intro hq
          rcases hq with ⟨hc, hh⟩
          apply hp
          refine ⟨hc, ?_⟩
          cases cs with
          | nil =>
            simp only [List.nil_append] at hh
            rw [extText_head nm] at hh
            simp at hh
          | cons d ds => simpa using hh
        rw [List.cons_append, containsClose_cons _ _ hp2, containsClose_cons _ _ hp]
        exact ih cs (by simpa using h)

theorem dropBCGo_true_close (rest : List Char) :
    dropBCGo ('*' :: '/' :: rest) true = dropBCGo rest false := rfl

theorem dropBCGo_true_cons (c : Char) (cs : List Char)
    (h : ¬(c = '*' ∧ cs.head? = some '/')) :
    dropBCGo (c :: cs) true = dropBCGo cs true := by
  rw [dropBCGo.eq_def]
  split <;> simp_all

theorem dropBCGo_false_open (rest : List Char) :
    dropBCGo ('/' :: '*' :: rest) false =
      if containsClose rest then dropBCGo rest true else '/' :: '*' :: rest := rfl

theorem dropBCGo_false_cons (c : Char) (cs : List Char)
    (h : ¬(c = '/' ∧ cs.head? = some '*')) :
    dropBCGo (c :: cs) false = c :: dropBCGo cs false := by
  rw [dropBCGo.eq_def]
  split <;> simp_all

theorem dropBCGo_no_slash : ∀ (a : List Char), ('/' : Char) ∉ a →
    dropBCGo a false = a := by
  intro a
  induction a with
  | nil => intro _; rfl
  | cons c cs ih =>
    intro h
    have hc : c ≠ '/' := fun e => h (by simp [e])
    rw [dropBCGo_false_cons c cs (fun hp => hc hp.1)]
    rw [ih (fun hm => h (by simp [hm]))]

theorem dropBCGo_extText (nm : List Char) (hw : ∀ c ∈ nm, isWordChar c = true) :
    dropBCGo (extText nm) false = extText nm :=
  dropBCGo_no_slash _ (extText_no_slash nm hw)

theorem dropBCGo_append (nm : List Char) (hw : ∀ c ∈ nm, isWordChar c = true) :
    ∀ (n : Nat) (a : List Char), a.length ≤ n →
    (dropBCGo (a ++ extText nm) false = dropBCGo a false ++ extText nm) ∧
    (containsClose a = true →
      dropBCGo (a ++ extText nm) true = dropBCGo a true ++ extText nm) := by
  intro n
  induction n with
  | zero =>
    intro a h
    have : a = [] := by
      cases a with
      | nil => rfl
      | cons x xs => simp at h
    subst this
    constructor
    · simpa using dropBCGo_extText nm hw
    · intro hc; exact absurd hc (by decide)
  | succ n ih =>
    intro a h
    cases a with
    | nil =>
      constructor
      · simpa using dropBCGo_extText nm hw
      · intro hc; exact absurd hc (by decide)
    | cons c cs =>
      have hlen : cs.length ≤ n := by simpa using h
      constructor
      · -- false state
        by_cases hp : c = '/' ∧ cs.head? = some '*'
        · obtain ⟨hc, hh⟩ := hp
          obtain ⟨rest, hcs⟩ : ∃ rest, cs = '*' :: rest := by
            cases cs with
            | nil => simp at hh
            | cons d ds =>
              have hd : d = '*' := by simpa using hh
              exact ⟨ds, by rw [hd]⟩
          subst hc; subst hcs
          rw [List.cons_append, List.cons_append, dropBCGo_false_open, dropBCGo_false_open]
          have hrl : rest.length ≤ n := by simp at h; omega
          rw [containsClose_append nm hw n rest hrl]
          by_cases hcc : containsClose rest = true
          · rw [if_pos hcc, if_pos hcc]
            exact (ih rest hrl).2 hcc
          · rw [if_neg hcc, if_neg hcc]
            rfl
        · have hp2 : ¬(c = '/' ∧ (cs ++ extText nm).head? = some '*') := by
            intro hq
            rcases hq with ⟨hc, hh⟩
            apply hp
            refine ⟨hc, ?_⟩
            cases cs with
            | nil =>
              simp only [List.nil_append] at hh
              rw [extText_head nm] at hh
              simp at hh
            | cons d ds => simpa using hh
          rw [List.cons_append, dropBCGo_false_cons _ _ hp2, dropBCGo_false_cons _ _ hp]
          rw [(ih cs hlen).1]
          rfl
      · -- true state, a closer exists in the remaining text
        intro hcc
        by_cases hp : c = '*' ∧ cs.head? = some '/'
        · obtain ⟨hc, hh⟩ := hp
          obtain ⟨rest, hcs⟩ : ∃ rest, cs = '/' :: rest := by
            cases cs with
            | nil => simp at hh
            | cons d ds =>
              have hd : d = '/' := by simpa using hh
              exact ⟨ds, by rw [hd]⟩
          subst hc; subst hcs
          rw [List.cons_append, List.cons_append, dropBCGo_true_close, dropBCGo_true_close]
          exact (ih rest (by simp at h; omega)).1
        · have hp2 : ¬(c = '*' ∧ (cs ++ extText nm).head? = some '/') := by
            intro hq
            rcases hq with ⟨hc, hh⟩
            apply hp
            refine ⟨hc, ?_⟩
            cases cs with
            | nil =>
              simp only [List.nil_append] at hh
              rw [extText_head nm] at hh
              simp at hh
            | cons d ds => simpa using hh
          rw [List.cons_append, dropBCGo_true_cons _ _ hp2, dropBCGo_true_cons _ _ hp]
          rw [containsClose_cons _ _ hp] at hcc
          exact (ih cs hlen).2 hcc

theorem cleanText_append (nm : List Char) (hw : ∀ c ∈ nm, isWordChar c = true)
    (T : List Char) : cleanText (T ++ extText nm) = cleanText T ++ extText nm := by
  show dropBCGo (dropLC (T ++ extText nm) false) false = cleanText T ++ extText nm
  rw [dropLC_append nm hw T.length T false (Nat.le_refl _)]
  exact (dropBCGo_append nm hw (dropLC T false).length (dropLC T false) (Nat.le_refl _)).1

theorem isPrefixOf_take (s a : List Char) (h : s.isPrefixOf a = true) :
    a.take s.length = s :=
  (List.prefix_iff_eq_take.mp (List.isPrefixOf_iff_prefix.mp h)).symm

theorem tw_mem_imp {p : Char → Bool} {a : List Char} {c : Char}
    (h : c ∈ a.takeWhile p) : p c = true :=
  List.mem_takeWhile_imp h

theorem ws_wordOrWs (c : Char) (h : isJsSpace c = true) : wordOrWs c = true := by
  simp [wordOrWs, h]

theorem word_wordOrWs (c : Char) (h : isWordChar c = true) : wordOrWs c = true := by
  simp [wordOrWs, h]

theorem all_wordOrWs_of_split (l s : List Char) (k : Nat)
    (hk : l.take k = s) (hs : ∀ c ∈ s, wordOrWs c = true)
    (hd : ∀ c ∈ l.drop k, wordOrWs c = true) : ∀ c ∈ l, wordOrWs c = true := by
  intro c hc
  rw [← List.take_append_drop k l] at hc
  rcases List.mem_append.mp hc with h | h
  · exact hs c (hk ▸ h)
  · exact hd c h

theorem qualPiece_or (nm : List Char) (s : List Char) (l : List Char) (k : Nat)
    (hs : ∀ c ∈ s, isWordChar c = true) (hpre : s.isPrefixOf l = true)
    (hk : s.length = k) :
    ((l.drop k ++ extText nm).takeWhile isJsSpace)
      = ((l.drop k).takeWhile isJsSpace) ∨
    (∀ c ∈ l, wordOrWs c = true) := by
  subst hk
  rcases Nat.lt_or_ge ((l.drop s.length).takeWhile isJsSpace).length
      (l.drop s.length).length with hlt | hge
  · exact Or.inl (tw_app_lt _ _ hlt)
  · right
    have hfull : ((l.drop s.length).takeWhile isJsSpace).length = (l.drop s.length).length :=
      Nat.le_antisymm (tw_len_le _) hge
    have hall := tw_full_all _ hfull
    exact all_wordOrWs_of_split l s s.length (isPrefixOf_take s l hpre)
      (fun c hc => word_wordOrWs c (hs c hc))
      (fun c hc => ws_wordOrWs c (hall c hc))

theorem tw_take_eq {p : Char → Bool} (a : List Char) :
    a.take (a.takeWhile p).length = a.takeWhile p :=
  (List.prefix_iff_eq_take.mp (List.takeWhile_prefix p)).symm

theorem qualAt_stab_or (nm : List Char) (l : List Char) :
    qualAt (l ++ extText nm) = qualAt l ∨ (∀ c ∈ l, wordOrWs c = true) := by
  simp only [qualAt]
  rw [prefix_append_stable "static".toList l (extText nm) (by decide) (extText_head nm)]
  rw [prefix_append_stable "const".toList l (extText nm) (by decide) (extText_head nm)]
  rw [prefix_append_stable "volatile".toList l (extText nm) (by decide) (extText_head nm)]
  by_cases h1 : "static".toList.isPrefixOf l = true
  · rw [if_pos h1, if_pos h1]
    have h6 : (6 : Nat) ≤ l.length := isPrefixOf_length_le "static".toList l h1
    rw [List.drop_append_of_le_length h6]
    rcases qualPiece_or nm "static".toList l 6 (by decide) h1 rfl with heq | hws
    · left; rw [heq]
    · right; exact hws
  · rw [if_neg h1, if_neg h1]
    by_cases h2 : "const".toList.isPrefixOf l = true
    · rw [if_pos h2, if_pos h2]
      have h5 : (5 : Nat) ≤ l.length := isPrefixOf_length_le "const".toList l h2
      rw [List.drop_append_of_le_length h5]
      rcases qualPiece_or nm "const".toList l 5 (by decide) h2 rfl with heq | hws
      · left; rw [heq]
      · right; exact hws
    · rw [if_neg h2, if_neg h2]
      by_cases h3 : "volatile".toList.isPrefixOf l = true
      · rw [if_pos h3, if_pos h3]
        have h8 : (8 : Nat) ≤ l.length := isPrefixOf_length_le "volatile".toList l h3
        rw [List.drop_append_of_le_length h8]
        rcases qualPiece_or nm "volatile".toList l 8 (by decide) h3 rfl with heq | hws
        · left; rw [heq]
        · right; exact hws
      · rw [if_neg h3, if_neg h3]
        exact Or.inl rfl

theorem qualAt_le (l : List Char) (k : Nat) (h : qualAt l = some k) :
    1 ≤ k ∧ k ≤ l.length := by
  simp only [qualAt] at h
  by_cases h1 : "static".toList.isPrefixOf l = true
  · rw [if_pos h1] at h
    have h6 : (6 : Nat) ≤ l.length := isPrefixOf_length_le "static".toList l h1
    have hw := tw_len_le (p := isJsSpace) (l.drop 6)
    rw [List.length_drop] at hw
    split at h
    · exact absurd h (by simp)
    · have := Option.some.inj h
      omega
  · rw [if_neg h1] at h
    by_cases h2 : "const".toList.isPrefixOf l = true
    · rw [if_pos h2] at h
      have h5 : (5 : Nat) ≤ l.length := isPrefixOf_length_le "const".toList l h2
      have hw := tw_len_le (p := isJsSpace) (l.drop 5)
      rw [List.length_drop] at hw
      split at h
      · exact absurd h (by simp)
      · have := Option.some.inj h
        omega
    · rw [if_neg h2] at h
      by_cases h3 : "volatile".toList.isPrefixOf l = true
      · rw [if_pos h3] at h
        have h8 : (8 : Nat) ≤ l.length := isPrefixOf_length_le "volatile".toList l h3
        have hw := tw_len_le (p := isJsSpace) (l.drop 8)
        rw [List.length_drop] at hw
        split at h
        · exact absurd h (by simp)
        · have := Option.some.inj h
          omega
      · rw [if_neg h3] at h
        exact absurd h (by simp)

theorem qualAt_take (l : List Char) (k : Nat) (h : qualAt l = some k) :
    ∀ c ∈ l.take k, wordOrWs c = true := by
  simp only [qualAt] at h
  by_cases h1 : "static".toList.isPrefixOf l = true
  · rw [if_pos h1] at h
    split at h
    · exact absurd h (by simp)
    · intro c hc
      have hk : k = 6 + ((l.drop 6).takeWhile isJsSpace).length := (Option.some.inj h).symm
      subst hk
      rw [List.take_add] at hc
      rcases List.mem_append.mp hc with hm | hm
      · have ht : l.take 6 = "static".toList := isPrefixOf_take "static".toList l h1
        rw [ht] at hm
        have hwc : isWordChar c = true := by
          simp at hm
          rcases hm with rfl|rfl|rfl|rfl|rfl|rfl <;> decide
        exact word_wordOrWs c hwc
      · rw [tw_take_eq] at hm
        exact ws_wordOrWs c (tw_mem_imp hm)
  · rw [if_neg h1] at h
    by_cases h2 : "const".toList.isPrefixOf l = true
    · rw [if_pos h2] at h
      split at h
      · exact absurd h (by simp)
      · intro c hc
        have hk : k = 5 + ((l.drop 5).takeWhile isJsSpace).length := (Option.some.inj h).symm
        subst hk
        rw [List.take_add] at hc
        rcases List.mem_append.mp hc with hm | hm
        · have ht : l.take 5 = "const".toList := isPrefixOf_take "const".toList l h2
          rw [ht] at hm
          have hwc : isWordChar c = true := by
            simp at hm
            rcases hm with rfl|rfl|rfl|rfl|rfl <;> decide
          exact word_wordOrWs c hwc
        · rw [tw_take_eq] at hm
          exact ws_wordOrWs c (tw_mem_imp hm)
    · rw [if_neg h2] at h
      by_cases h3 : "volatile".toList.isPrefixOf l = true
      · rw [if_pos h3] at h
        split at h
        · exact absurd h (by simp)
        · intro c hc
          have hk : k = 8 + ((l.drop 8).takeWhile isJsSpace).length := (Option.some.inj h).symm
          subst hk
          rw [List.take_add] at hc
          rcases List.mem_append.mp hc with hm | hm
          · have ht : l.take 8 = "volatile".toList := isPrefixOf_take "volatile".toList l h3
            rw [ht] at hm
            have hwc : isWordChar c = true := by
              simp at hm
              rcases hm with rfl|rfl|rfl|rfl|rfl|rfl|rfl|rfl <;> decide
            exact word_wordOrWs c hwc
          · rw [tw_take_eq] at hm
            exact ws_wordOrWs c (tw_mem_imp hm)
      · rw [if_neg h3] at h
        exact absurd h (by simp)

theorem qualsLen_succ (fuel : Nat) (l : List Char) :
    qualsLen (fuel + 1) l = match qualAt l with
      | some k => k + qualsLen fuel (l.drop k)
      | none => 0 := rfl

theorem qualAt_extText (nm : List Char) : qualAt (extText nm) = none := rfl

theorem qualsLen_le : ∀ (fuel : Nat) (l : List Char), qualsLen fuel l ≤ l.length := by
  intro fuel
  induction fuel with
  | zero => intro l; exact Nat.zero_le _
  | succ fuel ih =>
    intro l
    rw [qualsLen_succ]
    cases hq : qualAt l with
    | none => exact Nat.zero_le _
    | some k =>
      have hb := qualAt_le l k hq
      have hr := ih (l.drop k)
      rw [List.length_drop] at hr
      show k + qualsLen fuel (l.drop k) ≤ l.length
      omega

theorem qualsLen_take : ∀ (fuel : Nat) (l : List Char),
    ∀ c ∈ l.take (qualsLen fuel l), wordOrWs c = true := by
  intro fuel
  induction fuel with
  | zero => intro l c hc; simp [qualsLen] at hc
  | succ fuel ih =>
    intro l c hc
    rw [qualsLen_succ] at hc
    cases hq : qualAt l with
    | none => rw [hq] at hc; simp at hc
    | some k =>
      rw [hq] at hc
      have hc2 : c ∈ l.take (k + qualsLen fuel (l.drop k)) := hc
      rw [List.take_add] at hc2
      rcases List.mem_append.mp hc2 with hm | hm
      · exact qualAt_take l k hq c hm
      · exact ih (l.drop k) c hm

theorem qualsLen_extText (nm : List Char) : ∀ fuel, qualsLen fuel (extText nm) = 0 := by
  intro fuel
  cases fuel with
  | zero => rfl
  | succ f => rw [qualsLen_succ, qualAt_extText]

theorem qualsLen_stab_or (nm : List Char) :
    ∀ (f2 f1 : Nat) (l : List Char), (l ++ extText nm).length ≤ f1 → l.length ≤ f2 →
    qualsLen f1 (l ++ extText nm) = qualsLen f2 l ∨ (∀ c ∈ l, wordOrWs c = true) := by
  intro f2
  induction f2 with
  | zero =>
    intro f1 l h1 h2
    have hl : l = [] := by cases l with | nil => rfl | cons x xs => simp at h2
    subst hl
    left
    simp only [List.nil_append]
    rw [qualsLen_extText nm f1]
    rfl
  | succ f2 ih =>
    intro f1 l h1 h2
    rcases qualAt_stab_or nm l with heq | hws
    · cases hq : qualAt l with
      | none =>
        cases f1 with
        | zero =>
          exfalso
          have hE1 : 1 ≤ (l ++ extText nm).length := by simp [extText]; omega
          omega
        | succ f1 =>
          left
          rw [qualsLen_succ, qualsLen_succ, heq, hq]
      | some k =>
        have hb := qualAt_le l k hq
        cases f1 with
        | zero =>
          exfalso
          have hE1 : 1 ≤ (l ++ extText nm).length := by simp [extText]; omega
          omega
        | succ f1 =>
          have e1 : qualsLen (f1 + 1) (l ++ extText nm)
              = k + qualsLen f1 (l.drop k ++ extText nm) := by
            rw [qualsLen_succ, heq, hq]
            show k + qualsLen f1 ((l ++ extText nm).drop k) = _
            rw [List.drop_append_of_le_length hb.2]
          have e2 : qualsLen (f2 + 1) l = k + qualsLen f2 (l.drop k) := by
            rw [qualsLen_succ, hq]
          rcases ih f1 (l.drop k)
              (by simp only [List.length_append, List.length_drop] at h1 ⊢; omega)
              (by simp only [List.length_drop]; omega) with heq2 | hws2
          · left; rw [e1, e2, heq2]
          · right
            exact all_wordOrWs_of_split l (l.take k) k rfl (qualAt_take l k hq) hws2
    · exact Or.inr hws

theorem simpleType_stab (nm : List Char) (w : String) (hnl : ('\n' : Char) ∉ w.toList)
    (l : List Char) : simpleType w (l ++ extText nm) = simpleType w l := by
  simp only [simpleType]
  rw [prefix_append_stable w.toList l (extText nm) hnl (extText_head nm)]

theorem simpleType_le (w : String) (l : List Char) (tl : Nat)
    (h : simpleType w l = some tl) : tl ≤ l.length := by
  simp only [simpleType] at h
  split at h
  · rename_i hpre
    have := isPrefixOf_length_le w.toList l hpre
    have htl : tl = w.length := (Option.some.inj h).symm
    subst htl
    simpa using this
  · exact absurd h (by simp)

theorem unsignedType_stab_or (nm : List Char) (second : String)
    (hnl : ('\n' : Char) ∉ second.toList) (l : List Char) :
    unsignedType second (l ++ extText nm) = unsignedType second l ∨
    (∀ c ∈ l, wordOrWs c = true) := by
  simp only [unsignedType]
  rw [prefix_append_stable "unsigned".toList l (extText nm) (by decide) (extText_head nm)]
  by_cases hpre : "unsigned".toList.isPrefixOf l = true
  · rw [if_pos hpre, if_pos hpre]
    have h8 : (8 : Nat) ≤ l.length := isPrefixOf_length_le "unsigned".toList l hpre
    rw [List.drop_append_of_le_length h8]
    rcases qualPiece_or nm "unsigned".toList l 8 (by decide) hpre rfl with heq | hws
    · left
      rw [heq]
      by_cases hw0 : ((l.drop 8).takeWhile isJsSpace).length = 0
      · rw [if_pos hw0, if_pos hw0]
      · rw [if_neg hw0, if_neg hw0]
        rw [List.drop_append_of_le_length (tw_len_le _)]
        rw [prefix_append_stable second.toList _ (extText nm) hnl (extText_head nm)]
    · exact Or.inr hws
  · rw [if_neg hpre, if_neg hpre]
    exact Or.inl rfl

theorem unsignedType_le (second : String) (l : List Char) (tl : Nat)
    (h : unsignedType second l = some tl) : tl ≤ l.length := by
  simp only [unsignedType] at h
  split at h
  · rename_i hpre
    have h8 : (8 : Nat) ≤ l.length := isPrefixOf_length_le "unsigned".toList l hpre
    split at h
    · exact absurd h (by simp)
    · split at h
      · rename_i hw0 hpre2
        have hsl := isPrefixOf_length_le second.toList _ hpre2
        rw [List.length_drop, List.length_drop] at hsl
        have hwl := tw_len_le (p := isJsSpace) (l.drop 8)
        rw [List.length_drop] at hwl
        have htl : tl = 8 + ((l.drop 8).takeWhile isJsSpace).length + second.length :=
          (Option.some.inj h).symm
        have hsl2 : second.toList.length = second.length := by simp
        omega
      · exact absurd h (by simp)
  · exact absurd h (by simp)

theorem typeCandidates_stab_or (nm : List Char) (l : List Char) :
    typeCandidates (l ++ extText nm) = typeCandidates l ∨
    (∀ c ∈ l, wordOrWs c = true) := by
  rcases unsignedType_stab_or nm "char" (by decide) l with h1 | hws
  · rcases unsignedType_stab_or nm "int" (by decide) l with h2 | hws
    · rcases unsignedType_stab_or nm "short" (by decide) l with h3 | hws
      · rcases unsignedType_stab_or nm "long" (by decide) l with h4 | hws
        · left
          simp only [typeCandidates]
          rw [simpleType_stab nm "bool" (by decide) l,
            simpleType_stab nm "boolean" (by decide) l,
            simpleType_stab nm "byte" (by decide) l,
            simpleType_stab nm "char" (by decide) l,
            simpleType_stab nm "int" (by decide) l,
            simpleType_stab nm "short" (by decide) l,
            simpleType_stab nm "long" (by decide) l,
            simpleType_stab nm "float" (by decide) l,
            simpleType_stab nm "double" (by decide) l,
            simpleType_stab nm "int8_t" (by decide) l,
            simpleType_stab nm "uint8_t" (by decide) l,
            simpleType_stab nm "int16_t" (by decide) l,
            simpleType_stab nm "uint16_t" (by decide) l,
            simpleType_stab nm "int32_t" (by decide) l,
            simpleType_stab nm "uint32_t" (by decide) l,
            simpleType_stab nm "size_t" (by decide) l,
            simpleType_stab nm "String" (by decide) l, h1, h2, h3, h4]
        · exact Or.inr hws
      · exact Or.inr hws
    · exact Or.inr hws
  · exact Or.inr hws

theorem typeCandidates_le (l : List Char) (tl : Nat) (h : tl ∈ typeCandidates l) :
    tl ≤ l.length := by
  simp only [typeCandidates, List.mem_filterMap, id] at h
  obtain ⟨o, ho, hoeq⟩ := h
  simp only [List.mem_cons, List.not_mem_nil, or_false] at ho
  rcases ho with rfl|rfl|rfl|rfl|rfl|rfl|rfl|rfl|rfl|rfl|rfl|rfl|rfl|rfl|rfl|rfl|rfl|rfl|rfl|rfl|rfl
  all_goals first
    | exact simpleType_le _ _ _ hoeq
    | exact unsignedType_le _ _ _ hoeq

theorem declFinish_le (r : List Char) (fl : Nat) (h : declFinish r = some fl) :
    1 ≤ fl ∧ fl ≤ r.length := by
  simp only [declFinish] at h
  have hwl := tw_len_le (p := isJsSpace) r
  split at h
  · rename_i heq
    have hne : r.drop (r.takeWhile isJsSpace).length ≠ [] := by
      intro he; rw [he] at heq; simp at heq
    rw [Ne, List.drop_eq_nil_iff] at hne
    have hfl : fl = (r.takeWhile isJsSpace).length + 1 := (Option.some.inj h).symm
    omega
  · rename_i heq
    have hne : r.drop (r.takeWhile isJsSpace).length ≠ [] := by
      intro he; rw [he] at heq; simp at heq
    rw [Ne, List.drop_eq_nil_iff] at hne
    have hfl : fl = (r.takeWhile isJsSpace).length + 1 := (Option.some.inj h).symm
    omega
  · exact absurd h (by simp)

theorem declTail_le (l : List Char) (dl : Nat) (nmv : List Char) (arr : Option Nat)
    (h : declTail l = some (dl, nmv, arr)) :
    1 ≤ dl ∧ dl ≤ l.length ∧ nmv ≠ [] ∧ (∀ c ∈ nmv, isWordChar c = true) := by
  simp only [declTail] at h
  have hw1 := tw_len_le (p := isJsSpace) l
  split at h
  · exact absurd h (by simp)
  · rename_i hw0
    split at h
    · exact absurd h (by simp)
    · rename_i hnm
      have hnml := tw_len_le (p := isWordChar) (l.drop (l.takeWhile isJsSpace).length)
      rw [List.length_drop] at hnml
      have hnmw : ∀ c ∈ (l.drop (l.takeWhile isJsSpace).length).takeWhile isWordChar,
          isWordChar c = true := fun c hc => tw_mem_imp hc
      split at h
      · rename_i bl arr0 hbr
        have hbl := declBracket_len_le _ _ _ hbr
        rw [List.length_drop, List.length_drop] at hbl
        split at h
        · rename_i fl hfin
          have hfl := declFinish_le _ _ hfin
          simp only [List.length_drop] at hfl
          simp only [Option.some.injEq, Prod.mk.injEq] at h
          obtain ⟨hdl, hnme, harr⟩ := h
          subst hnme
          exact ⟨by omega, by omega, hnm, hnmw⟩
        · split at h
          · rename_i fl hfin
            have hfl := declFinish_le _ _ hfin
            simp only [List.length_drop] at hfl
            simp only [Option.some.injEq, Prod.mk.injEq] at h
            obtain ⟨hdl, hnme, harr⟩ := h
            subst hnme
            exact ⟨by omega, by omega, hnm, hnmw⟩
          · exact absurd h (by simp)
      · split at h
        · rename_i fl hfin
          have hfl := declFinish_le _ _ hfin
          simp only [List.length_drop] at hfl
          simp only [Option.some.injEq, Prod.mk.injEq] at h
          obtain ⟨hdl, hnme, harr⟩ := h
          subst hnme
          exact ⟨by omega, by omega, hnm, hnmw⟩
        · exact absurd h (by simp)

theorem tryTypeAlts_stab (nm : List Char) (hn1 : nm ≠ [])
    (hw : ∀ c ∈ nm, isWordChar c = true) (r1 : List Char) :
    ∀ cands, (∀ tl ∈ cands, tl ≤ r1.length) →
    tryTypeAlts (r1 ++ extText nm) cands = tryTypeAlts r1 cands := by
  intro cands
  induction cands with
  | nil => intro _; rfl
  | cons tl rest ih =>
    intro hb
    have htl : tl ≤ r1.length := hb tl (by simp)
    simp only [tryTypeAlts]
    rw [List.drop_append_of_le_length htl, declTail_stab nm hn1 hw (r1.drop tl)]
    cases declTail (r1.drop tl) with
    | some p => rfl
    | none => exact ih (fun t ht => hb t (by simp [ht]))

theorem tryTypeAlts_mem (r1 : List Char) :
    ∀ (cands : List Nat) (tl dl : Nat) (namev : List Char) (arrv : Option Nat),
    tryTypeAlts r1 cands = some (tl, dl, namev, arrv) → tl ∈ cands := by
  intro cands
  induction cands with
  | nil => intro tl dl namev arrv h; exact absurd h (by simp [tryTypeAlts])
  | cons t rest ih =>
    intro tl dl namev arrv h
    simp only [tryTypeAlts] at h
    split at h
    · rename_i heq
      simp only [Option.some.injEq, Prod.mk.injEq] at h
      simp [h.1]
    · exact List.mem_cons_of_mem t (ih tl dl namev arrv h)

theorem matchDeclAt_stab_or (nm : List Char) (hn1 : nm ≠ [])
    (hw : ∀ c ∈ nm, isWordChar c = true) (l : List Char) :
    matchDeclAt (l ++ extText nm) = matchDeclAt l ∨
    (∀ c ∈ l, wordOrWs c = true) := by
  simp only [matchDeclAt]
  rcases qualsLen_stab_or nm l.length (l ++ extText nm).length l
      (Nat.le_refl _) (Nat.le_refl _) with hq | hws
  · rw [hq]
    have hqle := qualsLen_le l.length l
    rw [List.drop_append_of_le_length hqle]
    rcases Nat.lt_or_ge ((l.drop (qualsLen l.length l)).takeWhile isJsSpace).length
        (l.drop (qualsLen l.length l)).length with hlt | hge
    · rw [tw_app_lt _ _ hlt]
      rw [List.drop_append_of_le_length (Nat.le_of_lt hlt)]
      rcases typeCandidates_stab_or nm
          ((l.drop (qualsLen l.length l)).drop
            ((l.drop (qualsLen l.length l)).takeWhile isJsSpace).length) with hc | hws2
      · left
        rw [hc]
        rw [tryTypeAlts_stab nm hn1 hw _ _ (fun t ht => typeCandidates_le _ t ht)]
        split
        · rename_i tl dl namev arrv heq
          have htl := typeCandidates_le _ tl (tryTypeAlts_mem _ _ tl dl namev arrv heq)
          rw [List.take_append_of_le_length htl]
        · rfl
      · right
        refine all_wordOrWs_of_split l _ (qualsLen l.length l) rfl
          (qualsLen_take l.length l) ?_
        refine all_wordOrWs_of_split (l.drop (qualsLen l.length l)) _
          ((l.drop (qualsLen l.length l)).takeWhile isJsSpace).length rfl ?_ hws2
        intro c hc
        rw [tw_take_eq] at hc
        exact ws_wordOrWs c (tw_mem_imp hc)
    · right
      refine all_wordOrWs_of_split l _ (qualsLen l.length l) rfl
        (qualsLen_take l.length l) ?_
      have hfull : ((l.drop (qualsLen l.length l)).takeWhile isJsSpace).length
          = (l.drop (qualsLen l.length l)).length := Nat.le_antisymm (tw_len_le _) hge
      exact fun c hc => ws_wordOrWs c (tw_full_all _ hfull c hc)
  · exact Or.inr hws

theorem tryTypeAlts_sound (r1 : List Char) :
    ∀ (cands : List Nat) (tl dl : Nat) (namev : List Char) (arrv : Option Nat),
    tryTypeAlts r1 cands = some (tl, dl, namev, arrv) →
    declTail (r1.drop tl) = some (dl, namev, arrv) := by
  intro cands
  induction cands with
  | nil => intro tl dl namev arrv h; exact absurd h (by simp [tryTypeAlts])
  | cons t rest ih =>
    intro tl dl namev arrv h
    simp only [tryTypeAlts] at h
    split at h
    · rename_i dl0 namev0 arrv0 heq
      simp only [Option.some.injEq, Prod.mk.injEq] at h
      obtain ⟨h1, h2, h3, h4⟩ := h
      subst h1; subst h2; subst h3; subst h4
      exact heq
    · exact ih tl dl namev arrv h

theorem matchDeclAt_le (l : List Char) (m : DeclM) (h : matchDeclAt l = some m) :
    1 ≤ m.len ∧ m.len ≤ l.length ∧ m.name ≠ [] ∧
    (∀ c ∈ m.name, isWordChar c = true) := by
  simp only [matchDeclAt] at h
  split at h
  · rename_i tl dl namev arrv heq
    have htl := typeCandidates_le _ tl (tryTypeAlts_mem _ _ tl dl namev arrv heq)
    have hdt := declTail_le _ _ _ _ (tryTypeAlts_sound _ _ tl dl namev arrv heq)
    have hq := qualsLen_le l.length l
    have hw0 := tw_len_le (p := isJsSpace) (l.drop (qualsLen l.length l))
    simp only [List.length_drop] at htl hdt hw0
    obtain ⟨mlen, mtype, mname, marr⟩ := m
    simp only [Option.some.injEq, DeclM.mk.injEq] at h
    obtain ⟨h1, h2, h3, h4⟩ := h
    subst h1; subst h3
    dsimp only
    exact ⟨by omega, by omega, hdt.2.2.1, hdt.2.2.2⟩
  · exact absurd h (by simp)

theorem wordOrWs_drop (l : List Char) (n : Nat)
    (h : ∀ c ∈ l, wordOrWs c = true) : ∀ c ∈ l.drop n, wordOrWs c = true :=
  fun c hc => h c (List.mem_of_mem_drop hc)

theorem declFinish_none_ws (r : List Char) (h : ∀ c ∈ r, wordOrWs c = true) :
    declFinish r = none := by
  simp only [declFinish]
  split
  · rename_i heq
    have hm : ('=' : Char) ∈ r :=
      List.mem_of_mem_drop (List.mem_of_mem_head? (Option.mem_def.mpr heq))
    exact absurd (h _ hm) (by decide)
  · rename_i heq
    have hm : (';' : Char) ∈ r :=
      List.mem_of_mem_drop (List.mem_of_mem_head? (Option.mem_def.mpr heq))
    exact absurd (h _ hm) (by decide)
  · rfl

theorem declTail_none_ws (l : List Char) (h : ∀ c ∈ l, wordOrWs c = true) :
    declTail l = none := by
  simp only [declTail]
  split
  · rfl
  · split
    · rfl
    · have hf1 : declFinish ((l.drop (l.takeWhile isJsSpace).length).drop
          ((l.drop (l.takeWhile isJsSpace).length).takeWhile isWordChar).length) = none :=
        declFinish_none_ws _ (wordOrWs_drop _ _ (wordOrWs_drop _ _ h))
      split
      · rename_i bl arr hbr
        have hf2 : declFinish (((l.drop (l.takeWhile isJsSpace).length).drop
            ((l.drop (l.takeWhile isJsSpace).length).takeWhile isWordChar).length).drop bl)
            = none :=
          declFinish_none_ws _ (wordOrWs_drop _ _ (wordOrWs_drop _ _ (wordOrWs_drop _ _ h)))
        rw [hf2, hf1]
      · rw [hf1]

theorem tryTypeAlts_none_ws (r1 : List Char) (h : ∀ c ∈ r1, wordOrWs c = true) :
    ∀ cands, tryTypeAlts r1 cands = none := by
  intro cands
  induction cands with
  | nil => rfl
  | cons t rest ih =>
    simp only [tryTypeAlts]
    rw [declTail_none_ws _ (wordOrWs_drop _ _ h)]
    exact ih

theorem matchDeclAt_none_ws (l : List Char) (h : ∀ c ∈ l, wordOrWs c = true) :
    matchDeclAt l = none := by
  simp only [matchDeclAt]
  rw [tryTypeAlts_none_ws _ (wordOrWs_drop _ _ (wordOrWs_drop _ _ h))]

theorem head_append_E (nm : List Char) (u : List Char) :
    u ≠ [] → (u ++ extText nm).head? = u.head? := by
  intro h
  cases u with
  | nil => exact absurd rfl h
  | cons c cs => rfl

theorem readAt_mono (nm : List Char) (vname : List Char) (hv : vname ≠ [])
    (prev : Option Char) (l : List Char) (h : readAt vname prev l = true) :
    readAt vname prev (l ++ extText nm) = true := by
  obtain ⟨vc, vt, hveq⟩ : ∃ vc vt, vname = vc :: vt := by
    cases vname with
    | nil => exact absurd rfl hv
    | cons a b => exact ⟨a, b, rfl⟩
  cases l with
  | nil =>
    exfalso
    subst hveq
    simp [readAt, List.isPrefixOf] at h
  | cons op cs =>
    simp only [readAt, List.cons_append, Bool.or_eq_true, Bool.and_eq_true,
      decide_eq_true_eq] at h ⊢
    rcases h with ⟨⟨hb, hp⟩, hbr⟩ | ⟨ho, hp, hend⟩
    · left
      refine ⟨⟨hb, ?_⟩, ?_⟩
      · have := isPrefixOf_append_left vname (op :: cs) (extText nm) hp
        simpa using this
      · have hlen : vname.length ≤ (op :: cs).length :=
          isPrefixOf_length_le vname (op :: cs) hp
      -- r := (op :: cs).drop vname.length
        have hdr : (op :: (cs ++ extText nm)).drop vname.length
            = (op :: cs).drop vname.length ++ extText nm := by
          rw [← List.cons_append]
          exact List.drop_append_of_le_length hlen
        rw [hdr]
        have hne : ((op :: cs).drop vname.length).drop
            (((op :: cs).drop vname.length).takeWhile isJsSpace).length ≠ [] := by
          intro he
          rcases hbr with hx | hx <;> rw [he] at hx <;> simp at hx
        have hlt : (((op :: cs).drop vname.length).takeWhile isJsSpace).length
            < ((op :: cs).drop vname.length).length := by
          have := tw_len_le (p := isJsSpace) ((op :: cs).drop vname.length)
          rw [Ne, List.drop_eq_nil_iff] at hne
          omega
        rw [tw_app_lt _ _ hlt]
        rw [List.drop_append_of_le_length (Nat.le_of_lt hlt)]
        rw [head_append_E nm _ (by rw [Ne, List.drop_eq_nil_iff]; omega)]
        exact hbr
    · right
      have hne : cs.drop (cs.takeWhile isJsSpace).length ≠ [] := by
        intro he
        rw [he] at hp
        subst hveq
        simp [List.isPrefixOf] at hp
      have hlt : (cs.takeWhile isJsSpace).length < cs.length := by
        have := tw_len_le (p := isJsSpace) cs
        rw [Ne, List.drop_eq_nil_iff] at hne
        omega
      rw [tw_app_lt _ _ hlt, List.drop_append_of_le_length (Nat.le_of_lt hlt)]
      refine ⟨ho, isPrefixOf_append_left vname _ _ hp, ?_⟩
      cases hcase : (cs.drop (cs.takeWhile isJsSpace).length).drop vname.length with
      | nil =>
        have hlen2 : vname.length = (cs.drop (cs.takeWhile isJsSpace).length).length := by
          have h1 := isPrefixOf_length_le vname _ hp
          rw [List.drop_eq_nil_iff] at hcase
          omega
        rw [List.drop_left' hlen2.symm]
        rw [extText_head nm]
        rfl
      | cons nx rest =>
        have hlen2 : vname.length ≤ (cs.drop (cs.takeWhile isJsSpace).length).length :=
          isPrefixOf_length_le vname _ hp
        rw [List.drop_append_of_le_length hlen2, hcase]
        rw [hcase] at hend
        exact hend

theorem readTestGo_mono (nm : List Char) (vname : List Char) (hv : vname ≠ []) :
    ∀ (after : List Char) (prev : Option Char), readTestGo vname after prev = true →
    readTestGo vname (after ++ extText nm) prev = true := by
  intro after
  induction after with
  | nil => intro prev h; simp [readTestGo] at h
  | cons c cs ih =>
    intro prev h
    simp only [readTestGo, List.cons_append, Bool.or_eq_true] at h ⊢
    rcases h with h | h
    · left
      have := readAt_mono nm vname hv prev (c :: cs) h
      simpa using this
    · exact Or.inr (ih (some c) h)

theorem brEq_mono (nm : List Char) :
    ∀ (l : List Char), brEq l = true → brEq (l ++ extText nm) = true := by
  intro l
  induction l with
  | nil => intro h; simp [brEq] at h
  | cons c cs ih =>
    intro h
    simp only [brEq, List.cons_append, List.append_eq, Bool.or_eq_true, Bool.and_eq_true,
      decide_eq_true_eq, Bool.not_eq_true'] at h ⊢
    rcases h with ⟨hc, hh⟩ | ⟨hc, hrec⟩
    · left
      refine ⟨hc, ?_⟩
      have hne : cs.drop (cs.takeWhile isJsSpace).length ≠ [] := by
        intro he; rw [he] at hh; simp at hh
      have hlt : (cs.takeWhile isJsSpace).length < cs.length := by
        have := tw_len_le (p := isJsSpace) cs
        rw [Ne, List.drop_eq_nil_iff] at hne
        omega
      rw [tw_app_lt _ _ hlt, List.drop_append_of_le_length (Nat.le_of_lt hlt)]
      rw [head_append_E nm _ hne]
      exact hh
    · exact Or.inr ⟨hc, ih hrec⟩

theorem writeAt_mono (nm : List Char) (vname : List Char) (hv : vname ≠ [])
    (prev : Option Char) (l : List Char) (h : writeAt vname prev l = true) :
    writeAt vname prev (l ++ extText nm) = true := by
  simp only [writeAt, Bool.and_eq_true] at h ⊢
  obtain ⟨⟨hb, hp⟩, hm⟩ := h
  refine ⟨⟨hb, isPrefixOf_append_left vname _ _ hp⟩, ?_⟩
  have hlen : vname.length ≤ l.length := isPrefixOf_length_le vname l hp
  rw [List.drop_append_of_le_length hlen]
  have hne : (l.drop vname.length).drop
      ((l.drop vname.length).takeWhile isJsSpace).length ≠ [] := by
    intro he
    rw [he] at hm
    simp at hm
  have hlt : ((l.drop vname.length).takeWhile isJsSpace).length
      < (l.drop vname.length).length := by
    have := tw_len_le (p := isJsSpace) (l.drop vname.length)
    rw [Ne, List.drop_eq_nil_iff] at hne
    omega
  rw [tw_app_lt _ _ hlt, List.drop_append_of_le_length (Nat.le_of_lt hlt)]
  rw [Ne, List.drop_eq_nil_iff, Nat.not_le] at hne
  obtain ⟨r2h, r2t, hr2⟩ : ∃ a b, (l.drop vname.length).drop
      ((l.drop vname.length).takeWhile isJsSpace).length = a :: b := by
    cases hcc : (l.drop vname.length).drop
        ((l.drop vname.length).takeWhile isJsSpace).length with
    | nil =>
      exfalso
      rw [List.drop_eq_nil_iff] at hcc
      omega
    | cons a b => exact ⟨a, b, rfl⟩
  rw [hr2] at hm ⊢
  rw [List.cons_append]
  by_cases h1 : r2h = '['
  · subst h1
    simp only [List.head?_cons] at hm ⊢
    have hm2 : brEq r2t = true := hm
    have := brEq_mono nm r2t hm2
    simpa using this
  · by_cases h2 : r2h = '='
    · subst h2
      exact hm
    · exfalso
      revert hm
      simp only [List.head?_cons]
      split
      · rename_i heq
        exact absurd (by simpa using heq) h1
      · rename_i heq
        exact absurd (by simpa using heq) h2
      · intro hm; exact absurd hm (by simp)

theorem writeTestGo_mono (nm : List Char) (vname : List Char) (hv : vname ≠ []) :
    ∀ (after : List Char) (prev : Option Char), writeTestGo vname after prev = true →
    writeTestGo vname (after ++ extText nm) prev = true := by
  intro after
  induction after with
  | nil => intro prev h; simp [writeTestGo] at h
  | cons c cs ih =>
    intro prev h
    simp only [writeTestGo, List.cons_append, Bool.or_eq_true] at h ⊢
    rcases h with h | h
    · left
      have := writeAt_mono nm vname hv prev (c :: cs) h
      simpa using this
    · exact Or.inr (ih (some c) h)

theorem isUsedAfter_mono (nm : List Char) (vname : List Char) (hv : vname ≠ [])
    (after : List Char) (h : isUsedAfter vname after = true) :
    isUsedAfter vname (after ++ extText nm) = true := by
  simp only [isUsedAfter, Bool.or_eq_true] at h ⊢
  rcases h with h | h
  · exact Or.inl (readTestGo_mono nm vname hv after none h)
  · exact Or.inr (writeTestGo_mono nm vname hv after none h)

theorem globalScopeAt_append (nm : List Char) (clean : List Char) (idx : Nat)
    (h : idx ≤ clean.length) :
    globalScopeAt (clean ++ extText nm) idx = globalScopeAt clean idx := by
  simp only [globalScopeAt]
  rw [List.take_append_of_le_length h]

theorem declContribution_mono (nm : List Char) (clean : List Char) (idx : Nat)
    (m : DeclM) (h1 : idx + m.len ≤ clean.length) (hname : m.name ≠ []) :
    declContribution clean idx m ≤ declContribution (clean ++ extText nm) idx m := by
  simp only [declContribution]
  rw [globalScopeAt_append nm clean idx (by omega)]
  by_cases hg : globalScopeAt clean idx = true
  · rw [if_pos hg, if_pos hg]
    rw [List.drop_append_of_le_length h1]
    by_cases hu : isUsedAfter m.name (clean.drop (idx + m.len)) = true
    · rw [if_pos hu, if_pos (isUsedAfter_mono nm m.name hname _ hu)]
    · rw [if_neg hu]
      exact Nat.zero_le _
  · rw [if_neg hg, if_neg hg]

theorem declScanGo_zero (l : List Char) (idx : Nat) (b : Bool) :
    declScanGo 0 l idx b = [] := rfl

theorem declScanGo_nil (f : Nat) (idx : Nat) (b : Bool) :
    declScanGo f [] idx b = [] := by cases f <;> rfl

theorem declScanGo_succ (f : Nat) (c : Char) (cs : List Char) (idx : Nat) (b : Bool) :
    declScanGo (f + 1) (c :: cs) idx b =
      if b then
        (match matchDeclAt (c :: cs) with
         | some m => (idx, m) :: declScanGo f ((c :: cs).drop m.len) (idx + m.len) false
         | none => declScanGo f cs (idx + 1) (c == '\n'))
      else declScanGo f cs (idx + 1) (c == '\n') := rfl

theorem declScanGo_ws : ∀ (f : Nat) (l : List Char) (idx : Nat) (b : Bool),
    (∀ c ∈ l, wordOrWs c = true) → declScanGo f l idx b = [] := by
  intro f
  induction f with
  | zero => intro l idx b _; rfl
  | succ f ih =>
    intro l idx b h
    cases l with
    | nil => exact declScanGo_nil _ _ _
    | cons c cs =>
      rw [declScanGo_succ]
      have hm : matchDeclAt (c :: cs) = none := matchDeclAt_none_ws _ h
      have htail : ∀ x ∈ cs, wordOrWs x = true := fun x hx => h x (by simp [hx])
      cases b with
      | true =>
        rw [if_pos rfl, hm]
        show declScanGo f cs (idx + 1) (c == '\n') = []
        exact ih cs (idx + 1) _ htail
      | false =>
        rw [if_neg (by simp)]
        exact ih cs (idx + 1) _ htail

theorem extText_len_pos (nm : List Char) : 1 ≤ (extText nm).length := by
  simp [extText]

theorem declScanMono (nm : List Char) (hn1 : nm ≠ [])
    (hw : ∀ c ∈ nm, isWordChar c = true) (clean : List Char) :
    ∀ (f2 f1 k : Nat) (atLS : Bool), k ≤ clean.length →
    clean.length - k ≤ f2 → clean.length + (extText nm).length - k ≤ f1 →
    ((declScanGo f2 (clean.drop k) k atLS).map
        (fun p => declContribution clean p.1 p.2)).sum ≤
    ((declScanGo f1 ((clean ++ extText nm).drop k) k atLS).map
        (fun p => declContribution (clean ++ extText nm) p.1 p.2)).sum := by
  intro f2
  induction f2 with
  | zero =>
    intro f1 k atLS hk h2 h1
    rw [declScanGo_zero]
    exact Nat.zero_le _
  | succ f2 ih =>
    intro f1 k atLS hk h2 h1
    cases hdrop : clean.drop k with
    | nil =>
      rw [declScanGo_nil]
      exact Nat.zero_le _
    | cons c cs =>
      have hkl : k < clean.length := by
        have h0 : (clean.drop k).length = clean.length - k := by simp
        rw [hdrop] at h0
        simp at h0
        omega
      have hEpos := extText_len_pos nm
      obtain ⟨f1p, rfl⟩ : ∃ g, f1 = g + 1 := by
        cases f1 with
        | zero => exfalso; omega
        | succ g => exact ⟨g, rfl⟩
      have hda : (clean ++ extText nm).drop k = c :: (cs ++ extText nm) := by
        rw [List.drop_append_of_le_length (Nat.le_of_lt hkl), hdrop]
        rfl
      have hcs : clean.drop (k + 1) = cs := by
        rw [← List.drop_drop 1 k clean, hdrop]
        rfl
      have hcsa : (clean ++ extText nm).drop (k + 1) = cs ++ extText nm := by
        rw [List.drop_append_of_le_length (by omega), hcs]
      cases atLS with
      | false =>
        rw [hda, declScanGo_succ, declScanGo_succ,
          if_neg (by simp), if_neg (by simp)]
        have hrec := ih (f1p) (k + 1) (c == '\n') (by omega) (by omega) (by omega)
        rw [hcs, hcsa] at hrec
        exact hrec
      | true =>
        rcases matchDeclAt_stab_or nm hn1 hw (clean.drop k) with heq | hws
        · rw [hdrop] at heq
          have heq2 : matchDeclAt (c :: (cs ++ extText nm)) = matchDeclAt (c :: cs) := by
            rw [← List.cons_append]
            exact heq
          rw [hda, declScanGo_succ, declScanGo_succ, if_pos rfl, if_pos rfl, heq2]
          cases hm : matchDeclAt (c :: cs) with
          | none =>
            have hrec := ih (f1p) (k + 1) (c == '\n') (by omega) (by omega) (by omega)
            rw [hcs, hcsa] at hrec
            exact hrec
          | some m =>
            have hb := matchDeclAt_le (c :: cs) m hm
            have hlc : (c :: cs).length = clean.length - k := by
              rw [← hdrop]; simp
            have hmlen : k + m.len ≤ clean.length := by
              have := hb.2.1
              omega
            have hlen2 : m.len ≤ (clean.drop k).length := by
              rw [hdrop]; exact hb.2.1
            have hd1 : (c :: cs).drop m.len = clean.drop (k + m.len) := by
              rw [← hdrop, List.drop_drop]
            have hd2 : (c :: (cs ++ extText nm)).drop m.len
                = clean.drop (k + m.len) ++ extText nm := by
              rw [← List.cons_append, ← hdrop,
                List.drop_append_of_le_length hlen2, List.drop_drop]
            show (((k, m) :: declScanGo f2 ((c :: cs).drop m.len) (k + m.len) false).map
                (fun p => declContribution clean p.1 p.2)).sum ≤
              (((k, m) :: declScanGo f1p ((c :: (cs ++ extText nm)).drop m.len)
                  (k + m.len) false).map
                (fun p => declContribution (clean ++ extText nm) p.1 p.2)).sum
            rw [hd1, hd2]
            simp only [List.map_cons, List.sum_cons]
            have hrec := ih (f1p) (k + m.len) false (by omega) (by omega) (by omega)
            rw [List.drop_append_of_le_length (show k + m.len ≤ clean.length by omega)]
              at hrec
            exact Nat.add_le_add
              (declContribution_mono nm clean k m (by omega) hb.2.2.1) hrec
        · rw [hdrop] at hws
          rw [declScanGo_ws (f2 + 1) (c :: cs) k true hws]
          exact Nat.zero_le _

theorem spaceName_tw (nm : List Char) (tail : List Char) (hn1 : nm ≠ [])
    (hw : ∀ c ∈ nm, isWordChar c = true) :
    (' ' :: (nm ++ tail)).takeWhile isJsSpace = [' '] := by
  obtain ⟨nh, nt, hname⟩ : ∃ nh nt, nm = nh :: nt := by
    cases nm with
    | nil => exact absurd rfl hn1
    | cons a b => exact ⟨a, b, rfl⟩
  have hnh : isWordChar nh = true := hw nh (by rw [hname]; simp)
  subst hname
  simp [List.takeWhile_cons, word_not_space nh hnh]
  decide

theorem nameHead_ne (nm : List Char) (tail : List Char) (hn1 : nm ≠ [])
    (hw : ∀ c ∈ nm, isWordChar c = true) (x : Char) (hx : isWordChar x = false) :
    ¬((nm ++ tail).head? = some x) := by
  obtain ⟨nh, nt, hname⟩ : ∃ nh nt, nm = nh :: nt := by
    cases nm with
    | nil => exact absurd rfl hn1
    | cons a b => exact ⟨a, b, rfl⟩
  have hnh : isWordChar nh = true := hw nh (by rw [hname]; simp)
  subst hname
  intro hc
  simp at hc
  subst hc
  rw [hnh] at hx
  exact absurd hx (by simp)

theorem extText_no_closeBrace (nm : List Char) (hw : ∀ c ∈ nm, isWordChar c = true) :
    ('}' : Char) ∉ extText nm :=
  extText_not_mem nm hw '}' (by decide) (by decide) (by decide) (by decide) (by decide)

theorem extText_no_openBrace (nm : List Char) (hw : ∀ c ∈ nm, isWordChar c = true) :
    ('{' : Char) ∉ extText nm :=
  extText_not_mem nm hw '{' (by decide) (by decide) (by decide) (by decide) (by decide)

theorem structMatchAt_stab (nm : List Char) (hn1 : nm ≠ [])
    (hw : ∀ c ∈ nm, isWordChar c = true) (l : List Char) :
    structMatchAt (l ++ extText nm) = structMatchAt l := by
  simp only [structMatchAt]
  rw [prefix_append_stable "struct".toList l (extText nm) (by decide) (extText_head nm)]
  by_cases hpre : "struct".toList.isPrefixOf l = true
  swap
  · rw [if_neg hpre, if_neg hpre]
  rw [if_pos hpre, if_pos hpre]
  have h6 : (6 : Nat) ≤ l.length := isPrefixOf_length_le "struct".toList l hpre
  rw [List.drop_append_of_le_length h6]
  rcases Nat.lt_or_ge ((l.drop 6).takeWhile isJsSpace).length (l.drop 6).length
    with hlt1 | hge1
  · rw [tw_app_lt _ _ hlt1]
    by_cases hw0 : ((l.drop 6).takeWhile isJsSpace).length = 0
    · rw [if_pos hw0, if_pos hw0]
    · rw [if_neg hw0, if_neg hw0]
      rw [List.drop_append_of_le_length (Nat.le_of_lt hlt1)]
      rw [tw_headstop ((l.drop 6).drop ((l.drop 6).takeWhile isJsSpace).length)
        (extText nm) '\n' (extText_head nm) (by decide)]
      by_cases hnm : ((l.drop 6).drop ((l.drop 6).takeWhile isJsSpace).length).takeWhile
          isWordChar = []
      · rw [if_pos hnm, if_pos hnm]
      · rw [if_neg hnm, if_neg hnm]
        have hnml : (((l.drop 6).drop ((l.drop 6).takeWhile isJsSpace).length).takeWhile
            isWordChar).length
            ≤ ((l.drop 6).drop ((l.drop 6).takeWhile isJsSpace).length).length :=
          tw_len_le _
        rw [List.drop_append_of_le_length hnml]
        generalize ((l.drop 6).drop ((l.drop 6).takeWhile isJsSpace).length).drop
          (((l.drop 6).drop ((l.drop 6).takeWhile isJsSpace).length).takeWhile
            isWordChar).length = r2g
        rcases Nat.lt_or_ge (r2g.takeWhile isJsSpace).length r2g.length with hlt2 | hge2
        · rw [tw_app_lt _ _ hlt2]
          rw [List.drop_append_of_le_length (Nat.le_of_lt hlt2)]
          rw [head_append_ne_nil _ _ (by rw [Ne, List.drop_eq_nil_iff]; omega)]
          generalize hR3 : r2g.drop (r2g.takeWhile isJsSpace).length = r3g
          by_cases hbrace : r3g.head? = some '{'
          swap
          · rw [if_neg hbrace, if_neg hbrace]
          rw [if_pos hbrace, if_pos hbrace]
          have hr3ne : r3g ≠ [] := by
            intro he; rw [he] at hbrace; simp at hbrace
          have hr3pos : 1 ≤ r3g.length := List.length_pos.mpr hr3ne
          rw [List.drop_append_of_le_length hr3pos]
          generalize hBD : r3g.drop 1 = bd
          have hbdl : bd.length = r3g.length - 1 := by rw [← hBD]; simp
          rcases Nat.lt_or_ge ((bd.takeWhile (fun ch => !(ch = '}'))).length) bd.length
            with hlt3 | hge3
          · rw [tw_app_lt _ _ hlt3]
            by_cases hbe : bd.takeWhile (fun ch => !(ch = '}')) = []
            · rw [if_pos hbe, if_pos hbe]
            · rw [if_neg hbe, if_neg hbe]
              have h1bl : 1 + (bd.takeWhile (fun ch => !(ch = '}'))).length ≤ r3g.length := by
                omega
              rw [List.drop_append_of_le_length h1bl]
              rw [head_append_ne_nil _ _ (by rw [Ne, List.drop_eq_nil_iff]; omega)]
          · have hallb := tw_full_all _ (Nat.le_antisymm (tw_len_le _) hge3)
            have hallE : ∀ x ∈ extText nm, (fun ch => !(ch = '}')) x = true := by
              intro x hx
              simp only [Bool.not_eq_true', decide_eq_false_iff_not]
              intro he
              subst he
              exact extText_no_closeBrace nm hw hx
            have e7 : ((bd ++ extText nm).takeWhile (fun ch => !(ch = '}')))
                = bd ++ extText nm := by
              rw [tw_app_all _ _ hallb]
              congr 1
              exact List.takeWhile_eq_self_iff.mpr hallE
            rw [e7]
            rw [if_neg (by simp [extText])]
            have e8 : (r3g ++ extText nm).drop (1 + (bd ++ extText nm).length) = [] := by
              rw [List.drop_eq_nil_iff]
              simp only [List.length_append]
              omega
            rw [e8]
            rw [if_neg (by simp)]
            have e9 : bd.takeWhile (fun ch => !(ch = '}')) = bd :=
              List.takeWhile_eq_self_iff.mpr hallb
            rw [e9]
            by_cases hbe : bd = []
            · rw [if_pos hbe]
            · rw [if_neg hbe]
              have e10 : r3g.drop (1 + bd.length) = [] := by
                rw [List.drop_eq_nil_iff]
                omega
              rw [e10]
              rw [if_neg (by simp)]
        · have hall2 := tw_full_all _ (Nat.le_antisymm (tw_len_le _) hge2)
          have e1 : ((r2g ++ extText nm).takeWhile isJsSpace) = r2g ++ ['\n'] := by
            rw [tw_app_all _ _ hall2, extText_ws]
          rw [e1]
          have e2 : (r2g ++ ['\n']).length = r2g.length + 1 := by simp
          rw [e2, drop_append_past]
          have e3 : ((extText nm).drop 1).head? = some 'i' := rfl
          rw [e3]
          rw [if_neg (by decide)]
          have e4 : r2g.drop (r2g.takeWhile isJsSpace).length = [] := by
            rw [List.drop_eq_nil_iff]; omega
          rw [e4]
          rw [if_neg (by simp)]
  · have hall := tw_full_all _ (Nat.le_antisymm (tw_len_le _) hge1)
    have e1 : ((l.drop 6 ++ extText nm).takeWhile isJsSpace) = l.drop 6 ++ ['\n'] := by
      rw [tw_app_all _ _ hall, extText_ws]
    rw [e1]
    have e2 : (l.drop 6 ++ ['\n']).length = (l.drop 6).length + 1 := by simp
    rw [e2]
    rw [if_neg (by omega)]
    rw [drop_append_past]
    have e3 : ((extText nm).drop 1).takeWhile isWordChar = ['i', 'n', 't'] := rfl
    rw [e3]
    rw [if_neg (by simp)]
    have e4 : ((extText nm).drop 1).drop (['i', 'n', 't'] : List Char).length
        = ' ' :: (nm ++ ';' :: '\n' :: (nm ++ [' ', '=', ' ', '1', ';', '\n'])) := rfl
    rw [e4]
    rw [spaceName_tw nm _ hn1 hw]
    have e5 : (' ' :: (nm ++ ';' :: '\n'
        :: (nm ++ [' ', '=', ' ', '1', ';', '\n']))).drop ([' '] : List Char).length
        = nm ++ ';' :: '\n' :: (nm ++ [' ', '=', ' ', '1', ';', '\n']) := rfl
    rw [e5]
    rw [if_neg (nameHead_ne nm _ hn1 hw '{' (by decide))]
    by_cases hw0 : ((l.drop 6).takeWhile isJsSpace).length = 0
    · rw [if_pos hw0]
    · rw [if_neg hw0]
      have e6 : (l.drop 6).drop ((l.drop 6).takeWhile isJsSpace).length = [] := by
        rw [List.drop_eq_nil_iff]; omega
      rw [e6]
      rfl

theorem structMatchAt_le (l : List Char) (len : Nat) (namev body : List Char)
    (h : structMatchAt l = some (len, namev, body)) :
    1 ≤ len ∧ len ≤ l.length ∧ namev ≠ [] ∧ (∀ c ∈ namev, isWordChar c = true) := by
  simp only [structMatchAt] at h
  split at h
  · rename_i hpre
    have h6 : (6 : Nat) ≤ l.length := isPrefixOf_length_le "struct".toList l hpre
    split at h
    · exact absurd h (by simp)
    · rename_i hw0
      split at h
      · exact absurd h (by simp)
      · rename_i hnm
        split at h
        · rename_i hbrace
          split at h
          · exact absurd h (by simp)
          · rename_i hbe
            split at h
            · rename_i hclose
              simp only [Option.some.injEq, Prod.mk.injEq] at h
              obtain ⟨hlen, hname, hbody⟩ := h
              have hw1 := tw_len_le (p := isJsSpace) (l.drop 6)
              have hnml := tw_len_le (p := isWordChar)
                ((l.drop 6).drop ((l.drop 6).takeWhile isJsSpace).length)
              have hw2 := tw_len_le (p := isJsSpace)
                (((l.drop 6).drop ((l.drop 6).takeWhile isJsSpace).length).drop
                  (((l.drop 6).drop ((l.drop 6).takeWhile isJsSpace).length).takeWhile
                    isWordChar).length)
              have hbl := tw_len_le (p := fun ch => !(ch = '}'))
                (((((l.drop 6).drop ((l.drop 6).takeWhile isJsSpace).length).drop
                  (((l.drop 6).drop ((l.drop 6).takeWhile isJsSpace).length).takeWhile
                    isWordChar).length).drop
                  ((((l.drop 6).drop ((l.drop 6).takeWhile isJsSpace).length).drop
                    (((l.drop 6).drop ((l.drop 6).takeWhile isJsSpace).length).takeWhile
                      isWordChar).length).takeWhile isJsSpace).length).drop 1)
              have hcl : ((((l.drop 6).drop ((l.drop 6).takeWhile isJsSpace).length).drop
                  (((l.drop 6).drop ((l.drop 6).takeWhile isJsSpace).length).takeWhile
                    isWordChar).length).drop
                  ((((l.drop 6).drop ((l.drop 6).takeWhile isJsSpace).length).drop
                    (((l.drop 6).drop ((l.drop 6).takeWhile isJsSpace).length).takeWhile
                      isWordChar).length).takeWhile isJsSpace).length).drop
                  (1 + ((((((l.drop 6).drop ((l.drop 6).takeWhile isJsSpace).length).drop
                    (((l.drop 6).drop ((l.drop 6).takeWhile isJsSpace).length).takeWhile
                      isWordChar).length).drop
                    ((((l.drop 6).drop ((l.drop 6).takeWhile isJsSpace).length).drop
                      (((l.drop 6).drop ((l.drop 6).takeWhile isJsSpace).length).takeWhile
                        isWordChar).length).takeWhile isJsSpace).length).drop 1).takeWhile
                      (fun ch => !(ch = '}'))).length) ≠ [] := by
                intro he
                rw [he] at hclose
                simp at hclose
              rw [Ne, List.drop_eq_nil_iff, Nat.not_le] at hcl
              simp only [List.length_drop] at hnml hw2 hbl hcl
              refine ⟨by omega, by omega, ?_, ?_⟩
              · rw [← hname]; exact hnm
              · rw [← hname]
                exact fun c hc => tw_mem_imp hc
            · exact absurd h (by simp)
        · exact absurd h (by simp)
  · exact absurd h (by simp)

theorem structMatchAt_brace (l : List Char) (x : Nat × List Char × List Char)
    (h : structMatchAt l = some x) : ('{' : Char) ∈ l := by
  simp only [structMatchAt] at h
  split at h
  · split at h
    · exact absurd h (by simp)
    · split at h
      · exact absurd h (by simp)
      · split at h
        · rename_i hbrace
          have h1 := List.mem_of_mem_head? (Option.mem_def.mpr hbrace)
          exact List.mem_of_mem_drop (List.mem_of_mem_drop
            (List.mem_of_mem_drop (List.mem_of_mem_drop h1)))
        · exact absurd h (by simp)
  · exact absurd h (by simp)

theorem structScanGo_zero (l : List Char) : structScanGo 0 l = [] := rfl

theorem structScanGo_nil (f : Nat) : structScanGo f [] = [] := by cases f <;> rfl

theorem structScanGo_succ (f : Nat) (c : Char) (cs : List Char) :
    structScanGo (f + 1) (c :: cs) =
      match structMatchAt (c :: cs) with
      | some (len, namev, body) => (namev, body) :: structScanGo f ((c :: cs).drop len)
      | none => structScanGo f cs := rfl

theorem structScanGo_noBrace : ∀ (f : Nat) (u : List Char), ('{' : Char) ∉ u →
    structScanGo f u = [] := by
  intro f
  induction f with
  | zero => intro u _; rfl
  | succ f ih =>
    intro u h
    cases u with
    | nil => rfl
    | cons c cs =>
      rw [structScanGo_succ]
      cases hm : structMatchAt (c :: cs) with
      | some x => exact absurd (structMatchAt_brace _ _ hm) h
      | none => exact ih cs (fun hmem => h (by simp [hmem]))

theorem structScan_eq (nm : List Char) (hn1 : nm ≠ [])
    (hw : ∀ c ∈ nm, isWordChar c = true) :
    ∀ (f2 f1 : Nat) (l : List Char), l.length ≤ f2 → (l ++ extText nm).length ≤ f1 →
    structScanGo f1 (l ++ extText nm) = structScanGo f2 l := by
  intro f2
  induction f2 with
  | zero =>
    intro f1 l h2 h1
    have hl : l = [] := by cases l with | nil => rfl | cons x xs => simp at h2
    subst hl
    rw [List.nil_append, structScanGo_noBrace f1 _ (extText_no_openBrace nm hw)]
    rw [structScanGo_zero]
  | succ f2 ih =>
    intro f1 l h2 h1
    cases l with
    | nil =>
      rw [List.nil_append, structScanGo_noBrace f1 _ (extText_no_openBrace nm hw)]
      rw [structScanGo_nil]
    | cons c cs =>
      have hEpos := extText_len_pos nm
      obtain ⟨f1p, rfl⟩ : ∃ g, f1 = g + 1 := by
        cases f1 with
        | zero => exfalso; simp at h1
        | succ g => exact ⟨g, rfl⟩
      have hstab := structMatchAt_stab nm hn1 hw (c :: cs)
      have heq2 : structMatchAt (c :: (cs ++ extText nm)) = structMatchAt (c :: cs) := by
        rw [← List.cons_append]
        exact hstab
      rw [List.cons_append, structScanGo_succ, structScanGo_succ, heq2]
      cases hm : structMatchAt (c :: cs) with
      | none => exact ih f1p cs (by simpa using h2) (by simp at h1 ⊢; omega)
      | some x =>
        obtain ⟨len, namev, body⟩ := x
        have hb := structMatchAt_le (c :: cs) len namev body hm
        have hd2 : (c :: (cs ++ extText nm)).drop len
            = (c :: cs).drop len ++ extText nm := by
          rw [← List.cons_append]
          exact List.drop_append_of_le_length hb.2.1
        show (namev, body) :: structScanGo f1p ((c :: (cs ++ extText nm)).drop len)
            = (namev, body) :: structScanGo f2 ((c :: cs).drop len)
        rw [hd2]
        rw [ih f1p ((c :: cs).drop len)
          (by simp only [List.length_drop]; simp at h2 ⊢; omega)
          (by simp only [List.length_append, List.length_drop]; simp at h1 ⊢; omega)]

theorem structDefs_eq (nm : List Char) (hn1 : nm ≠ [])
    (hw : ∀ c ∈ nm, isWordChar c = true) (clean : List Char) :
    structDefs (clean ++ extText nm) = structDefs clean := by
  simp only [structDefs]
  rw [structScan_eq nm hn1 hw clean.length (clean ++ extText nm).length clean
    (Nat.le_refl _) (by simp)]

theorem structScanGo_names : ∀ (f : Nat) (l : List Char)
    (p : List Char × List Char), p ∈ structScanGo f l →
    p.1 ≠ [] ∧ (∀ c ∈ p.1, isWordChar c = true) := by
  intro f
  induction f with
  | zero => intro l p hp; rw [structScanGo_zero] at hp; simp at hp
  | succ f ih =>
    intro l p hp
    cases l with
    | nil => rw [structScanGo_nil] at hp; simp at hp
    | cons c cs =>
      rw [structScanGo_succ] at hp
      cases hm : structMatchAt (c :: cs) with
      | none =>
        rw [hm] at hp
        exact ih cs p hp
      | some x =>
        obtain ⟨len, namev, body⟩ := x
        rw [hm] at hp
        have hp2 : p ∈ (namev, body) :: structScanGo f ((c :: cs).drop len) := hp
        rcases List.mem_cons.mp hp2 with hh | ht
        · subst hh
          have hb := structMatchAt_le (c :: cs) len namev body hm
          exact ⟨hb.2.2.1, hb.2.2.2⟩
        · exact ih _ p ht

theorem upsert_pres (P : List Char → Prop) (m : List (List Char × Nat))
    (k : List Char) (v : Nat) (hm : ∀ p ∈ m, P p.1) (hk : P k) :
    ∀ q ∈ upsert m k v, P q.1 := by
  intro q hq
  simp only [upsert] at hq
  split at hq
  · obtain ⟨p, hp, hpe⟩ := List.mem_map.mp hq
    by_cases he : p.1 = k
    · rw [if_pos he] at hpe
      rw [← hpe]
      exact hm p hp
    · rw [if_neg he] at hpe
      rw [← hpe]
      exact hm p hp
  · rcases List.mem_append.mp hq with h | h
    · exact hm q h
    · have : q = (k, v) := by simpa using h
      rw [this]
      exact hk

theorem foldl_upsert_pres (P : List Char → Prop) :
    ∀ (entries : List (List Char × List Char)) (acc : List (List Char × Nat)),
    (∀ p ∈ acc, P p.1) → (∀ e ∈ entries, P e.1) →
    ∀ q ∈ entries.foldl (fun m p => upsert m p.1 (structBodySize p.2)) acc, P q.1 := by
  intro entries
  induction entries with
  | nil => intro acc hacc _ q hq; exact hacc q hq
  | cons e rest ih =>
    intro acc hacc hent q hq
    simp only [List.foldl_cons] at hq
    exact ih (upsert acc e.1 (structBodySize e.2))
      (upsert_pres P acc e.1 _ hacc (hent e (by simp)))
      (fun x hx => hent x (by simp [hx])) q hq

theorem structDefs_names (clean : List Char) :
    ∀ p ∈ structDefs clean, p.1 ≠ [] ∧ (∀ c ∈ p.1, isWordChar c = true) := by
  intro p hp
  exact foldl_upsert_pres (fun s => s ≠ [] ∧ (∀ c ∈ s, isWordChar c = true))
    (structScanGo clean.length clean) [] (by simp)
    (fun e he => structScanGo_names clean.length clean e he) p hp

theorem instMatchAt_stab (nm : List Char) (hn1 : nm ≠ [])
    (hw : ∀ c ∈ nm, isWordChar c = true) (sName : List Char)
    (hsw : ∀ c ∈ sName, isWordChar c = true) (prev : Option Char) (l : List Char) :
    instMatchAt sName prev (l ++ extText nm) = instMatchAt sName prev l := by
  have hsnl : ('\n' : Char) ∉ sName := by
    intro hmem
    exact absurd (hsw _ hmem) (by decide)
  simp only [instMatchAt]
  rw [prefix_append_stable sName l (extText nm) hsnl (extText_head nm)]
  by_cases hcond : (boundaryOk prev && sName.isPrefixOf l) = true
  swap
  · rw [if_neg hcond, if_neg hcond]
  rw [if_pos hcond, if_pos hcond]
  have hpre2 : sName.isPrefixOf l = true := by
    have h2 := hcond
    rw [Bool.and_eq_true] at h2
    exact h2.2
  have hsl : sName.length ≤ l.length := isPrefixOf_length_le sName l hpre2
  rw [List.drop_append_of_le_length hsl]
  generalize l.drop sName.length = r
  rcases Nat.lt_or_ge (r.takeWhile isJsSpace).length r.length with hlt | hge
  · rw [tw_app_lt r _ hlt]
    by_cases hw0 : (r.takeWhile isJsSpace).length = 0
    · rw [if_pos hw0, if_pos hw0]
    · rw [if_neg hw0, if_neg hw0]
      rw [List.drop_append_of_le_length (Nat.le_of_lt hlt)]
      rw [tw_headstop (r.drop (r.takeWhile isJsSpace).length) (extText nm) '\n'
        (extText_head nm) (by decide)]
      by_cases hnm : (r.drop (r.takeWhile isJsSpace).length).takeWhile isWordChar = []
      · rw [if_pos hnm, if_pos hnm]
      · rw [if_neg hnm, if_neg hnm]
        rw [List.drop_append_of_le_length (tw_len_le _)]
        rw [declBracket_stab nm]
        split
        · rename_i bl arr hbr
          have hble := (declBracket_len_le _ _ _ hbr).2
          rw [List.drop_append_of_le_length hble]
          rw [declFinish_stab nm, declFinish_stab nm]
        · rename_i hbr
          rw [declFinish_stab nm]
  · have hfull : (r.takeWhile isJsSpace).length = r.length :=
      Nat.le_antisymm (tw_len_le r) hge
    have hall := tw_full_all r hfull
    rw [tw_app_all r _ hall, extText_ws]
    have e1 : (r ++ ['\n']).length = r.length + 1 := by simp
    rw [e1]
    rw [if_neg (by omega)]
    rw [drop_append_past]
    have e2 : ((extText nm).drop 1).takeWhile isWordChar = ['i', 'n', 't'] := rfl
    rw [e2]
    rw [if_neg (by simp)]
    have e3 : ((extText nm).drop 1).drop (['i', 'n', 't'] : List Char).length
        = ' ' :: (nm ++ ';' :: '\n' :: (nm ++ [' ', '=', ' ', '1', ';', '\n'])) := rfl
    rw [e3]
    have e4 : declBracket (' ' :: (nm ++ ';' :: '\n'
        :: (nm ++ [' ', '=', ' ', '1', ';', '\n']))) = none := rfl
    rw [e4]
    rw [declFinish_spaceName nm hn1 hw]
    by_cases hw0 : (r.takeWhile isJsSpace).length = 0
    · rw [if_pos hw0]
    · rw [if_neg hw0]
      have e5 : r.drop (r.takeWhile isJsSpace).length = [] := by
        rw [List.drop_eq_nil_iff]; omega
      rw [e5]
      rfl

theorem instMatchAt_le (sName : List Char) (prev : Option Char) (l : List Char)
    (len cnt : Nat) (h : instMatchAt sName prev l = some (len, cnt)) :
    1 ≤ len ∧ len ≤ l.length := by
  simp only [instMatchAt] at h
  split at h
  · rename_i hcond
    have hpre2 : sName.isPrefixOf l = true := by
      rw [Bool.and_eq_true] at hcond
      exact hcond.2
    have hsl : sName.length ≤ l.length := isPrefixOf_length_le sName l hpre2
    have hw1 := tw_len_le (p := isJsSpace) (l.drop sName.length)
    split at h
    · exact absurd h (by simp)
    · rename_i hw0
      split at h
      · exact absurd h (by simp)
      · rename_i hnm
        have hnml := tw_len_le (p := isWordChar)
          ((l.drop sName.length).drop ((l.drop sName.length).takeWhile isJsSpace).length)
        split at h
        · rename_i bl arr hbr
          have hble := declBracket_len_le _ _ _ hbr
          split at h
          · rename_i fl hfin
            have hfl := declFinish_le _ _ hfin
            simp only [Option.some.injEq, Prod.mk.injEq] at h
            obtain ⟨hlen, hcnt⟩ := h
            simp only [List.length_drop] at hnml hble hfl hw1
            omega
          · split at h
            · rename_i fl hfin
              have hfl := declFinish_le _ _ hfin
              simp only [Option.some.injEq, Prod.mk.injEq] at h
              obtain ⟨hlen, hcnt⟩ := h
              simp only [List.length_drop] at hnml hfl hw1
              omega
            · exact absurd h (by simp)
        · split at h
          · rename_i fl hfin
            have hfl := declFinish_le _ _ hfin
            simp only [Option.some.injEq, Prod.mk.injEq] at h
            obtain ⟨hlen, hcnt⟩ := h
            simp only [List.length_drop] at hnml hfl hw1
            omega
          · exact absurd h (by simp)
  · exact absurd h (by simp)

theorem instScanGo_zero (s : List Char) (l : List Char) (idx : Nat) (prev : Option Char) :
    instScanGo s 0 l idx prev = [] := rfl

theorem instScanGo_nil (s : List Char) (f : Nat) (idx : Nat) (prev : Option Char) :
    instScanGo s f [] idx prev = [] := by cases f <;> rfl

theorem instScanGo_succ (s : List Char) (f : Nat) (c : Char) (cs : List Char)
    (idx : Nat) (prev : Option Char) :
    instScanGo s (f + 1) (c :: cs) idx prev =
      match instMatchAt s prev (c :: cs) with
      | some (len, count) => (idx, count) :: instScanGo s f ((c :: cs).drop len)
          (idx + len) (((c :: cs).take len).getLast?)
      | none => instScanGo s f cs (idx + 1) (some c) := rfl

theorem instScanMono (nm : List Char) (hn1 : nm ≠ [])
    (hw : ∀ c ∈ nm, isWordChar c = true) (clean : List Char) (sName : List Char)
    (hsw : ∀ c ∈ sName, isWordChar c = true) (S : Nat) :
    ∀ (f2 f1 k : Nat) (prev : Option Char), k ≤ clean.length →
    clean.length - k ≤ f2 → clean.length + (extText nm).length - k ≤ f1 →
    ((instScanGo sName f2 (clean.drop k) k prev).map
        (fun q => if globalScopeAt clean q.1 then S * q.2 else 0)).sum ≤
    ((instScanGo sName f1 ((clean ++ extText nm).drop k) k prev).map
        (fun q => if globalScopeAt (clean ++ extText nm) q.1 then S * q.2 else 0)).sum := by
  intro f2
  induction f2 with
  | zero =>
    intro f1 k prev hk h2 h1
    rw [instScanGo_zero]
    exact Nat.zero_le _
  | succ f2 ih =>
    intro f1 k prev hk h2 h1
    cases hdrop : clean.drop k with
    | nil =>
      rw [instScanGo_nil]
      exact Nat.zero_le _
    | cons c cs =>
      have hkl : k < clean.length := by
        have h0 : (clean.drop k).length = clean.length - k := by simp
        rw [hdrop] at h0
        simp at h0
        omega
      have hEpos := extText_len_pos nm
      obtain ⟨f1p, rfl⟩ : ∃ g, f1 = g + 1 := by
        cases f1 with
        | zero => exfalso; omega
        | succ g => exact ⟨g, rfl⟩
      have hda : (clean ++ extText nm).drop k = c :: (cs ++ extText nm) := by
        rw [List.drop_append_of_le_length (Nat.le_of_lt hkl), hdrop]
        rfl
      have hcs : clean.drop (k + 1) = cs := by
        rw [← List.drop_drop 1 k clean, hdrop]
        rfl
      have hcsa : (clean ++ extText nm).drop (k + 1) = cs ++ extText nm := by
        rw [List.drop_append_of_le_length (by omega), hcs]
      have hstab := instMatchAt_stab nm hn1 hw sName hsw prev (clean.drop k)
      rw [hdrop] at hstab
      have heq2 : instMatchAt sName prev (c :: (cs ++ extText nm))
          = instMatchAt sName prev (c :: cs) := by
        rw [← List.cons_append]
        exact hstab
      rw [hda, instScanGo_succ, instScanGo_succ, heq2]
      cases hm : instMatchAt sName prev (c :: cs) with
      | none =>
        have hrec := ih f1p (k + 1) (some c) (by omega) (by omega) (by omega)
        rw [hcs, hcsa] at hrec
        exact hrec
      | some p =>
        obtain ⟨len, count⟩ := p
        have hb := instMatchAt_le sName prev (c :: cs) len count hm
        have hlc : (c :: cs).length = clean.length - k := by
          rw [← hdrop]; simp
        have hmlen : k + len ≤ clean.length := by
          have := hb.2
          omega
        have hlen2 : len ≤ (clean.drop k).length := by
          rw [hdrop]; exact hb.2
        have hd1 : (c :: cs).drop len = clean.drop (k + len) := by
          rw [← hdrop, List.drop_drop]
        have hd2 : (c :: (cs ++ extText nm)).drop len
            = clean.drop (k + len) ++ extText nm := by
          rw [← List.cons_append, ← hdrop,
            List.drop_append_of_le_length hlen2, List.drop_drop]
        have htake : (c :: (cs ++ extText nm)).take len = (c :: cs).take len := by
          rw [← List.cons_append]
          exact List.take_append_of_le_length hb.2
        show (((k, count) :: instScanGo sName f2 ((c :: cs).drop len) (k + len)
            (((c :: cs).take len).getLast?)).map
            (fun q => if globalScopeAt clean q.1 then S * q.2 else 0)).sum ≤
          (((k, count) :: instScanGo sName f1p ((c :: (cs ++ extText nm)).drop len)
              (k + len) (((c :: (cs ++ extText nm)).take len).getLast?)).map
            (fun q => if globalScopeAt (clean ++ extText nm) q.1 then S * q.2 else 0)).sum
        rw [hd1, hd2, htake]
        simp only [List.map_cons, List.sum_cons]
        have hrec := ih f1p (k + len) (((c :: cs).take len).getLast?)
          (by omega) (by omega) (by omega)
        rw [List.drop_append_of_le_length (show k + len ≤ clean.length by omega)] at hrec
        refine Nat.add_le_add (le_of_eq ?_) hrec
        rw [globalScopeAt_append nm clean k (by omega)]

/-- C8 (amended): appending a new global declaration together with a later
reference to it — the block `\nint NAME;\nNAME = 1;\n` for any nonempty
identifier NAME made of word characters — at the END of a sketch never
decreases `ram.globalVariables`; the original claim fails only for insertions
in the middle of the text. -/
theorem analyzeGlobals_append_monotone (T : List Char) (nm : List Char)
    (hn1 : nm ≠ []) (hw : ∀ c ∈ nm, isWordChar c = true) :
    analyzeGlobalsTotal T ≤ analyzeGlobalsTotal (T ++ extText nm) := by
  simp only [analyzeGlobalsTotal]
  rw [cleanText_append nm hw T]
  apply Nat.add_le_add
  · have hmono := declScanMono nm hn1 hw (cleanText T) (cleanText T).length
      (cleanText T ++ extText nm).length 0 true (Nat.zero_le _)
      (by omega) (by simp)
    simp only [List.drop_zero] at hmono
    exact hmono
  · rw [structDefs_eq nm hn1 hw (cleanText T)]
    apply List.sum_le_sum
    intro p hp
    have hnames := structDefs_names (cleanText T) p hp
    have hmono := instScanMono nm hn1 hw (cleanText T) p.1 hnames.2 p.2
      (cleanText T).length (cleanText T ++ extText nm).length 0 none
      (Nat.zero_le _) (by omega) (by simp)
    simp only [List.drop_zero] at hmono
    exact hmono

theorem analyzeGlobals_append_monotone_witness :
    (['y'] : List Char) ≠ [] ∧ (∀ c ∈ (['y'] : List Char), isWordChar c = true) ∧
    analyzeGlobalsTotal ("int a;\na = 1;\n".toList) ≤
      analyzeGlobalsTotal ("int a;\na = 1;\n".toList ++ extText ['y']) :=
  ⟨by decide, by decide,
    analyzeGlobals_append_monotone ("int a;\na = 1;\n".toList) ['y']
      (by decide) (by decide)⟩
